import Mathlib

set_option maxHeartbeats 1000000

/-!
Verification of the ThSL translation engine of Project_Sign_Language.

The definitions below are shallow embeddings of the TypeScript sources:
`src/services/thslRules.ts`, `src/services/thslEngine.ts`,
`src/pages/ResultPage.tsx` and the Supabase edge functions.  JavaScript
strings are modelled as Lean `String` (lists of characters), JavaScript
`Array.prototype.sort` as a stable insertion sort (ES2019 requires sort
stability), and the numeric priorities coming from the database as `Int`.
-/

/-! ## Models of the JavaScript string primitives used by the repository -/

/-- Model of the JavaScript whitespace class, used by `trim` and `\s`. -/
def wsChar (c : Char) : Bool := c.isWhitespace

/-- The zero-width marks stripped by `normalizeThaiToken` / `normalizeThaiText`
in ResultPage.tsx: `​`, `‌`, `‍`, `﻿`. -/
def isZWChar (c : Char) : Bool :=
  c == '​' || c == '‌' || c == '‍' || c == '﻿'

/-- `startsSeq hay needle`: `needle` occurs at the very start of `hay`. -/
def startsSeq : List Char → List Char → Bool
  | _, [] => true
  | [], _ :: _ => false
  | c :: cs, d :: ds => c == d && startsSeq cs ds

/-- `hasSeq hay needle`: model of JavaScript `String.prototype.includes`. -/
def hasSeq : List Char → List Char → Bool
  | [], needle => needle.isEmpty
  | c :: cs, needle => startsSeq (c :: cs) needle || hasSeq cs needle

/-- Model of JavaScript `String.prototype.indexOf`: the first offset at which
`needle` occurs in `hay`, if any. -/
def firstOcc : List Char → List Char → Option Nat
  | [], needle => if startsSeq [] needle then some 0 else none
  | c :: cs, needle =>
    if startsSeq (c :: cs) needle then some 0
    else (firstOcc cs needle).map (· + 1)

/-- Strip leading and trailing whitespace from a character list. -/
def trimList (l : List Char) : List Char :=
  ((l.dropWhile wsChar).reverse.dropWhile wsChar).reverse

/-- Model of JavaScript `String.prototype.trim`. -/
def jsTrim (s : String) : String := ⟨trimList s.data⟩

/-- Model of `replace(/\s+/g, " ")`: every maximal whitespace run becomes one
single space. -/
def collapseWS : List Char → List Char
  | [] => []
  | c :: cs =>
    if wsChar c then ' ' :: collapseWS (cs.dropWhile wsChar)
    else c :: collapseWS cs
termination_by l => l.length
decreasing_by
  · simp only [List.length_cons]
    exact Nat.lt_succ_of_le (List.dropWhile_sublist wsChar).length_le
  · simp

/-- `normalizeThaiToken` from ResultPage.tsx: strip zero-width marks, trim. -/
def normalizeThaiToken (s : String) : String :=
  jsTrim ⟨s.data.filter (fun c => !isZWChar c)⟩

/-- `normalizeThaiText` from ResultPage.tsx: strip zero-width marks only. -/
def normalizeThaiText (s : String) : String :=
  ⟨s.data.filter (fun c => !isZWChar c)⟩

/-- The punctuation class removed by `normalizeToken` in the summarize edge
function: `[.,!?;:"'(){}\[\]<>]`. -/
def isPunctChar (c : Char) : Bool :=
  ['.', ',', '!', '?', ';', ':', '"', '\'', '(', ')', '\x7b', '\x7d',
   '[', ']', '<', '>'].contains c

/-- `normalizeToken` from the summarize edge function: trim, strip punctuation,
collapse whitespace runs to single spaces, trim again. -/
def normalizeToken (s : String) : String :=
  jsTrim ⟨collapseWS ((jsTrim s).data.filter (fun c => !isPunctChar c))⟩

/-! ## A stable sort modelling `Array.prototype.sort`

`ltB a b` models "the comparator returns a negative number on `(a, b)`";
ES2019 requires `Array.prototype.sort` to be stable. -/

/-- Insert `a` in front of the first element that is not strictly below it. -/
def insertStable (ltB : α → α → Bool) (a : α) : List α → List α
  | [] => [a]
  | b :: bs => if ltB b a then b :: insertStable ltB a bs else a :: b :: bs

/-- Stable sort by a boolean "strictly less" comparator. -/
def sortStable (ltB : α → α → Bool) : List α → List α
  | [] => []
  | a :: as => insertStable ltB a (sortStable ltB as)

theorem insertStable_perm (ltB : α → α → Bool) (a : α) (l : List α) :
    (insertStable ltB a l).Perm (a :: l) := by
  induction l with
  | nil => simp [insertStable]
  | cons b bs ih =>
    simp only [insertStable]
    split
    · exact (ih.cons b).trans (List.Perm.swap a b bs)
    · exact List.Perm.refl _

theorem sortStable_perm (ltB : α → α → Bool) (l : List α) :
    (sortStable ltB l).Perm l := by
  induction l with
  | nil => simp [sortStable]
  | cons a as ih =>
    exact (insertStable_perm ltB a (sortStable ltB as)).trans (ih.cons a)

theorem insertStable_pairwise (ltB : α → α → Bool)
    (hco : ∀ x y z, ltB x z = true → ltB x y = true ∨ ltB y z = true)
    (hasym : ∀ x y, ltB x y = true → ltB y x = false)
    (a : α) (l : List α) (h : l.Pairwise (fun x y => ltB y x = false)) :
    (insertStable ltB a l).Pairwise (fun x y => ltB y x = false) := by
  induction l with
  | nil => simp [insertStable]
  | cons b bs ih =>
    rcases h with _ | ⟨hb, hbs⟩
    simp only [insertStable]
    split
    · rename_i hba
      refine List.Pairwise.cons ?_ (ih hbs)
      intro x hx
      have hx' := (insertStable_perm ltB a bs).mem_iff.mp hx
      rcases List.mem_cons.mp hx' with hxa | hxbs
      · rw [hxa]
        exact hasym b a hba
      · exact hb x hxbs
    · rename_i hba
      have hba' : ltB b a = false := by
        cases hv : ltB b a
        · rfl
        · exact absurd hv hba
      refine List.Pairwise.cons ?_ (List.Pairwise.cons hb hbs)
      intro x hx
      rcases List.mem_cons.mp hx with hxb | hxbs
      · rw [hxb]
        exact hba'
      · cases hv : ltB x a
        · rfl
        · rcases hco x b a hv with h1 | h1
          · rw [hb x hxbs] at h1; cases h1
          · rw [hba'] at h1; cases h1

theorem sortStable_pairwise (ltB : α → α → Bool)
    (hco : ∀ x y z, ltB x z = true → ltB x y = true ∨ ltB y z = true)
    (hasym : ∀ x y, ltB x y = true → ltB y x = false)
    (l : List α) :
    (sortStable ltB l).Pairwise (fun x y => ltB y x = false) := by
  induction l with
  | nil => simp [sortStable]
  | cons a as ih => exact insertStable_pairwise ltB hco hasym a _ ih

/-- The first element, in original order, minimal for `ltB`. -/
def firstMin (ltB : α → α → Bool) : List α → Option α
  | [] => none
  | a :: as => some ((firstMin ltB as).elim a (fun m => if ltB m a then m else a))

theorem insertStable_head (ltB : α → α → Bool) (a : α) (l : List α) :
    (insertStable ltB a l).head? =
      match l.head? with
      | none => some a
      | some h => if ltB h a then some h else some a := by
  cases l with
  | nil => simp [insertStable]
  | cons b bs =>
    simp only [insertStable, List.head?_cons]
    split <;> simp

theorem sortStable_eq_nil (ltB : α → α → Bool) (l : List α) :
    sortStable ltB l = [] ↔ l = [] := by
  constructor
  · intro h
    have := sortStable_perm ltB l
    rw [h] at this
    exact this.symm.eq_nil
  · intro h; subst h; simp [sortStable]

theorem firstMin_eq_none (ltB : α → α → Bool) (l : List α) :
    firstMin ltB l = none ↔ l = [] := by
  cases l with
  | nil => simp [firstMin]
  | cons x xs => simp [firstMin]

theorem sortStable_head (ltB : α → α → Bool) (l : List α) :
    (sortStable ltB l).head? = firstMin ltB l := by
  induction l with
  | nil => rfl
  | cons a as ih =>
    cases hm : firstMin ltB as with
    | none =>
      have hnil : sortStable ltB as = [] := by
        have has : as = [] := (firstMin_eq_none ltB as).mp hm
        rw [has]; rfl
      rw [sortStable, insertStable_head, ih, hm, firstMin, hm]
      simp [Option.elim]
    | some m =>
      rw [sortStable, insertStable_head, ih, hm, firstMin, hm]
      simp only [Option.elim]
      cases hv : ltB m a <;> simp [hv]

theorem firstMin_mem (ltB : α → α → Bool) :
    ∀ (l : List α) (m : α), firstMin ltB l = some m → m ∈ l := by
  intro l
  induction l with
  | nil => intro m h; simp [firstMin] at h
  | cons a as ih =>
    intro m h
    rw [firstMin] at h
    injection h with h'
    cases hm : firstMin ltB as with
    | none =>
      rw [hm] at h'
      simp only [Option.elim] at h'
      rw [← h']
      exact List.mem_cons_self a as
    | some m' =>
      rw [hm] at h'
      simp only [Option.elim] at h'
      split at h'
      · rw [← h']
        exact List.mem_cons_of_mem a (ih m' hm)
      · rw [← h']
        exact List.mem_cons_self a as

theorem firstMin_minimal (ltB : α → α → Bool)
    (hco : ∀ x y z, ltB x z = true → ltB x y = true ∨ ltB y z = true)
    (hasym : ∀ x y, ltB x y = true → ltB y x = false) :
    ∀ (l : List α) (m : α), firstMin ltB l = some m →
      ∀ b ∈ l, ltB b m = false := by
  have hirr : ∀ x, ltB x x = false := by
    intro x
    cases hv : ltB x x
    · rfl
    · exact absurd hv (by simp [hasym x x hv])
  intro l
  induction l with
  | nil => intro m h; simp [firstMin] at h
  | cons a as ih =>
    intro m h b hb
    rw [firstMin] at h
    injection h with h'
    cases hm : firstMin ltB as with
    | none =>
      have has : as = [] := (firstMin_eq_none ltB as).mp hm
      rw [hm] at h'
      simp only [Option.elim] at h'
      subst has
      rcases List.mem_cons.mp hb with hba | hba
      · rw [hba, ← h']
        exact hirr a
      · simp at hba
    | some m' =>
      rw [hm] at h'
      simp only [Option.elim] at h'
      split at h'
      · rename_i hlt
        rcases List.mem_cons.mp hb with hba | hba
        · rw [hba, ← h']
          exact hasym m' a hlt
        · rw [← h']
          exact ih m' hm b hba
      · rename_i hlt
        rcases List.mem_cons.mp hb with hba | hba
        · rw [hba, ← h']
          exact hirr a
        · rw [← h']
          have hbm' : ltB b m' = false := ih m' hm b hba
          cases hv : ltB b a
          · rfl
          · rcases hco b m' a hv with h1 | h1
            · rw [hbm'] at h1; cases h1
            · simp [h1] at hlt

/-! ## The ThSL rule engine (thslRules.ts / thslEngine.ts)

Role constructor names follow the string literals of the `Role` union type:
`PPPlace` is `"PP(Place)"`, `AdvTime` is `"Adv(Time)"`, `QWhen` is
`"When/Why/Where/How(?)"`, `QWhose`/`QWho`/`QWhat` are `"Whose(?)"`,
`"Who(?)"`, `"What(?)"`, and `QMark` is `"Q(?)"`. -/

inductive Role where
  | S | V | O | NEG
  | PPPlace | AdvTime
  | ClausalVerb
  | NP | PAdj | ComparativeAdj
  | Money | Number | Currency
  | Age | Year | Break
  | Adj | Adj1 | Adj2
  | QWhen | QWhose | QWho | QWhat | QMark
  | Pronoun | V2B
deriving DecidableEq, Repr

/-- `TaggedWord` from thslRules.ts; `role = none` models the `"UNK"` tag. -/
structure TaggedWord where
  word : String
  role : Option Role
deriving DecidableEq, Repr

/-- An entry of a rule's `thslOrder`: a plain role, or the `"Age/Year"`
composite slot that rule 27 smuggles in with a cast. -/
inductive OrderRole where
  | plain (r : Role)
  | ageYear
deriving DecidableEq, Repr

structure ThslRule where
  id : Nat
  thaiPattern : List Role
  thslOrder : List OrderRole
deriving DecidableEq, Repr

/-- The rule catalogue `THSL_RULES` (Table 1-40) from thslRules.ts. -/
def THSL_RULES : List ThslRule := [
  ⟨1, [.S, .V], [.plain .S, .plain .V]⟩,
  ⟨2, [.S, .NEG, .V], [.plain .S, .plain .NEG, .plain .V]⟩,
  ⟨3, [.S, .V, .O], [.plain .O, .plain .S, .plain .V]⟩,
  ⟨4, [.S, .NEG, .V, .O], [.plain .O, .plain .S, .plain .V, .plain .NEG]⟩,
  ⟨5, [.S, .V, .O, .O], [.plain .O, .plain .O, .plain .S, .plain .V]⟩,
  ⟨6, [.S, .NEG, .V, .O, .O],
    [.plain .O, .plain .O, .plain .S, .plain .V, .plain .NEG]⟩,
  ⟨7, [.O, .S, .V], [.plain .O, .plain .S, .plain .V]⟩,
  ⟨8, [.O, .NEG, .S, .V], [.plain .O, .plain .S, .plain .V, .plain .NEG]⟩,
  ⟨9, [.S, .V, .PPPlace], [.plain .PPPlace, .plain .S, .plain .V]⟩,
  ⟨10, [.S, .V, .NEG, .PPPlace],
    [.plain .PPPlace, .plain .S, .plain .V, .plain .NEG]⟩,
  ⟨11, [.S, .V, .O, .PPPlace],
    [.plain .PPPlace, .plain .O, .plain .S, .plain .V]⟩,
  ⟨12, [.S, .NEG, .V, .O, .PPPlace],
    [.plain .PPPlace, .plain .O, .plain .S, .plain .V, .plain .NEG]⟩,
  ⟨13, [.S, .V, .AdvTime], [.plain .AdvTime, .plain .S, .plain .V]⟩,
  ⟨14, [.S, .NEG, .V, .AdvTime],
    [.plain .AdvTime, .plain .S, .plain .V, .plain .NEG]⟩,
  ⟨15, [.S, .V, .O, .AdvTime],
    [.plain .AdvTime, .plain .O, .plain .S, .plain .V]⟩,
  ⟨16, [.S, .NEG, .V, .O, .AdvTime],
    [.plain .AdvTime, .plain .O, .plain .S, .plain .V, .plain .NEG]⟩,
  ⟨17, [.S, .V, .ClausalVerb], [.plain .ClausalVerb, .plain .S, .plain .V]⟩,
  ⟨18, [.S, .NEG, .V, .ClausalVerb],
    [.plain .ClausalVerb, .plain .S, .plain .V, .plain .NEG]⟩,
  ⟨19, [.S, .V, .ClausalVerb, .O],
    [.plain .O, .plain .ClausalVerb, .plain .S, .plain .V]⟩,
  ⟨20, [.S, .NEG, .V, .ClausalVerb, .O],
    [.plain .O, .plain .ClausalVerb, .plain .S, .plain .V, .plain .NEG]⟩,
  ⟨21, [.NP, .PAdj, .V], [.plain .PAdj, .plain .NP, .plain .V]⟩,
  ⟨22, [.NP, .PAdj, .NEG, .V],
    [.plain .PAdj, .plain .NP, .plain .V, .plain .NEG]⟩,
  ⟨23, [.NP, .PAdj, .V, .O],
    [.plain .O, .plain .PAdj, .plain .NP, .plain .V]⟩,
  ⟨24, [.NP, .PAdj, .NEG, .V, .O],
    [.plain .O, .plain .PAdj, .plain .NP, .plain .V, .plain .NEG]⟩,
  ⟨25, [.S, .ComparativeAdj, .O],
    [.plain .O, .plain .S, .plain .ComparativeAdj]⟩,
  ⟨26, [.S, .V, .Money, .Number, .Currency],
    [.plain .Currency, .plain .Number, .plain .S, .plain .V]⟩,
  ⟨27, [.S, .Age, .Number, .Year], [.plain .S, .ageYear, .plain .Number]⟩,
  ⟨28, [.S, .Break, .O], [.plain .O, .plain .S, .plain .Break]⟩,
  ⟨29, [.S, .V, .O, .PPPlace, .AdvTime],
    [.plain .AdvTime, .plain .PPPlace, .plain .O, .plain .S, .plain .V]⟩,
  ⟨30, [.S, .NEG, .V, .O, .PPPlace, .AdvTime],
    [.plain .AdvTime, .plain .PPPlace, .plain .O, .plain .S, .plain .V,
     .plain .NEG]⟩,
  ⟨31, [.S, .Adj, .V, .O, .Adj],
    [.plain .O, .plain .Adj, .plain .S, .plain .Adj, .plain .V]⟩,
  ⟨32, [.S, .V, .QWhen], [.plain .S, .plain .V, .plain .QWhen]⟩,
  ⟨33, [.O, .QWhose], [.plain .O, .plain .QWhose]⟩,
  ⟨34, [.Pronoun, .V2B, .QWho], [.plain .Pronoun, .plain .V2B, .plain .QWho]⟩,
  ⟨35, [.S, .V, .O, .QMark], [.plain .O, .plain .S, .plain .V, .plain .QMark]⟩,
  ⟨36, [.S, .V, .QWhat], [.plain .S, .plain .V, .plain .QWhat]⟩,
  ⟨37, [.O, .Adj], [.plain .O, .plain .Adj]⟩,
  ⟨38, [.O, .NEG, .Adj], [.plain .O, .plain .NEG, .plain .Adj]⟩,
  ⟨39, [.O, .Adj1, .Adj2], [.plain .O, .plain .Adj1, .plain .Adj2]⟩,
  ⟨40, [.O, .Adj1, .NEG, .Adj2],
    [.plain .O, .plain .Adj1, .plain .Adj2, .plain .NEG]⟩]

/-- `uniqPreserveOrder` from thslRules.ts: trim each word, drop empties and
words already seen, keep first occurrences in order (`seen` is the JS `Set`). -/
def uniqAux (seen : List String) : List String → List String
  | [] => []
  | w :: ws =>
    let t := jsTrim w
    if t = "" then uniqAux seen ws
    else if seen.contains t then uniqAux seen ws
    else t :: uniqAux (t :: seen) ws

def uniqPreserveOrder (words : List String) : List String := uniqAux [] words

/-! ### The role tagger (thslEngine.ts) -/

/-- Model of the regex test `/^[0-9]+$/`. -/
def isNumberToken (s : String) : Bool :=
  !(s == "") && s.data.all (fun c => '0' ≤ c && c ≤ '9')

def isNeg (t : String) : Bool := t == "ไม่" || t == "ไม่มี" || t == "ห้าม"

def isTimeWord (t : String) : Bool :=
  ["วันนี้", "พรุ่งนี้", "เมื่อวาน", "ตอนนี้", "เช้า", "สาย", "บ่าย", "เย็น",
   "กลางคืน"].contains t

def isPlaceWord (t : String) : Bool :=
  ["บ้าน", "โรงเรียน", "มหาวิทยาลัย", "ตลาด", "โรงพยาบาล", "ที่ทำงาน",
   "ห้องน้ำ"].contains t

def isQuestionWord (t : String) : Bool :=
  ["เมื่อไหร่", "ทำไม", "ที่ไหน", "อย่างไร", "ยังไง"].contains t

def isWhat (t : String) : Bool := t == "อะไร"

def isWho (t : String) : Bool := t == "ใคร"

def isWhose (t : String) : Bool := t == "ของใคร"

def isQParticle (t : String) : Bool :=
  t == "ไหม" || t == "หรือเปล่า" || t == "?"

def pronounWords : List String :=
  ["ฉัน", "ผม", "หนู", "เรา", "คุณ", "เขา", "เธอ", "มัน", "พวกเรา"]

def verbWords : List String :=
  ["ไป", "มา", "กิน", "นอน", "เรียน", "ทำงาน", "ดู", "ซื้อ", "ขาย", "ชอบ",
   "รัก", "ช่วย"]

/-- The per-word role assignment in `tagTokens` (branch order as in the
source). -/
def tagRole (w : String) : Role :=
  if isNeg w then .NEG
  else if isNumberToken w then .Number
  else if isTimeWord w then .AdvTime
  else if isPlaceWord w then .PPPlace
  else if isQuestionWord w then .QWhen
  else if isWhat w then .QWhat
  else if isWhose w then .QWhose
  else if isWho w then .QWho
  else if isQParticle w then .QMark
  else if pronounWords.contains w then .S
  else if verbWords.contains w then .V
  else .O

/-- `tagTokens` from thslEngine.ts. -/
def tagTokens (tokens : List String) : List TaggedWord :=
  (uniqPreserveOrder tokens).map (fun w => ⟨w, some (tagRole w)⟩)

/-! ### The pattern matcher -/

/-- `rolesOf`: the roles of the tagged words with `"UNK"` filtered out. -/
def rolesOf (tagged : List TaggedWord) : List Role :=
  tagged.filterMap (·.role)

/-- The per-rule test inside `findExactRule`: identical length and identical
role at each position. -/
def patternMatches (rule : ThslRule) (pattern : List Role) : Bool :=
  rule.thaiPattern.length == pattern.length &&
    (rule.thaiPattern.zip pattern).all (fun p => p.1 == p.2)

/-- `findExactRule`: first rule of the table whose `thaiPattern` matches. -/
def findExactRule (tagged : List TaggedWord) : Option ThslRule :=
  THSL_RULES.find? (fun rule => patternMatches rule (rolesOf tagged))

/-! ### The reorderer -/

/-- `findIndex` over the enumerated tagged words, skipping used indices:
first unused pair whose role is `r`. -/
def pickPair (tw : List (Nat × TaggedWord)) (used : List Nat) (r : Role) :
    Option (Nat × TaggedWord) :=
  tw.find? (fun p => !used.contains p.1 && p.2.role == some r)

/-- One iteration of the loop over `thslOrder` in `reorder`, including the
special `"Age/Year"` case of rule 27. -/
def reorderStep (tw : List (Nat × TaggedWord)) :
    List String × List Nat → OrderRole → List String × List Nat
  | (out, used), .plain r =>
    match pickPair tw used r with
    | some p => (out ++ [p.2.word], p.1 :: used)
    | none => (out, used)
  | (out, used), .ageYear =>
    match pickPair tw used .Age with
    | some p => (out ++ [p.2.word], p.1 :: used)
    | none =>
      match pickPair tw used .Year with
      | some p => (out ++ [p.2.word], p.1 :: used)
      | none => (out, used)

/-- `reorder` from thslEngine.ts: walk the rule's output roles, consuming the
first unused token of each role, then append all still-unused tokens in
original order. -/
def reorder (tagged : List TaggedWord) (thslOrder : List OrderRole) :
    List String :=
  let tw := tagged.enum
  let acc := thslOrder.foldl (reorderStep tw) ([], [])
  acc.1 ++ (tw.filter (fun p => !acc.2.contains p.1)).map (fun p => p.2.word)

/-- `reorderByRule` from ResultPage.tsx: identical to `reorder` except for the
final `.filter(Boolean)`, which drops empty strings. -/
def reorderByRule (tagged : List TaggedWord) (thslOrder : List OrderRole) :
    List String :=
  (reorder tagged thslOrder).filter (fun w => !(w == ""))

/-! ### The public entry points -/

structure ThslResult where
  thsl : List String
  ruleId : Option Nat
  tagged : List TaggedWord
deriving DecidableEq, Repr

/-- `toThslTokens` from thslEngine.ts. -/
def toThslTokens (tokens : List String) : ThslResult :=
  let tagged := tagTokens tokens
  match findExactRule tagged with
  | none => ⟨tagged.map (·.word), none, tagged⟩
  | some rule => ⟨reorder tagged rule.thslOrder, some rule.id, tagged⟩

/-- Steps 6-7 of `run` in ResultPage.tsx: match a rule, reorder by it, or fall
back to the tagged order. -/
def orderedTokens (tagged : List TaggedWord) : List String :=
  match findExactRule tagged with
  | some rule => reorderByRule tagged rule.thslOrder
  | none => tagged.map (·.word)

/-! ## The assembler and lexical resolver (ResultPage.tsx, edge function) -/

/-- `uniqPreserveOrder` from ResultPage.tsx: like the thslRules version, but it
normalizes (zero-width strip + trim) instead of only trimming. -/
def uniqRPAux (seen : List String) : List String → List String
  | [] => []
  | t :: ts =>
    let x := normalizeThaiToken t
    if x = "" then uniqRPAux seen ts
    else if seen.contains x then uniqRPAux seen ts
    else x :: uniqRPAux (x :: seen) ts

def uniqPreserveOrderRP (tokens : List String) : List String :=
  uniqRPAux [] tokens

/-- `k.includes(t) && k !== t` from `dropSubTokens`: `t` is a strict substring
of `k`. -/
def strictSubOf (t k : String) : Bool :=
  hasSeq k.data t.data && !(k == t)

/-- The keep loop of `dropSubTokens`: scan candidates longest first, keep a
token unless an already kept token strictly contains it. -/
def keepLoop : List String → List String → List String
  | [], kept => kept
  | t :: rest, kept =>
    if kept.any (fun k => strictSubOf t k) then keepLoop rest kept
    else keepLoop rest (kept ++ [t])

/-- `dropSubTokens` from ResultPage.tsx. -/
def dropSubTokens (tokens : List String) : List String :=
  let tks := uniqPreserveOrderRP
    ((tokens.map normalizeThaiToken).filter (fun s => !(s == "")))
  let sorted := sortStable (fun a b => decide (b.length < a.length)) tks
  let kept := keepLoop sorted []
  tks.filter (fun t => kept.contains t)

/-- The decorated element built by `orderTokensByOriginalText`:
`{ token, i, idx }` with `idx = 1e15` when the token does not occur. -/
structure Decorated where
  token : String
  i : Nat
  idx : Nat
deriving DecidableEq, Repr

/-- `idx >= 0 ? idx : 1e15` of the source, with `indexOf` modelled by
`firstOcc`. -/
def occKey (text : String) (token : String) : Nat :=
  match firstOcc (normalizeThaiText text).data token.data with
  | some n => n
  | none => 10 ^ 15

def decorate (text : String) (tokens : List String) : List Decorated :=
  tokens.enum.map (fun p =>
    let token := normalizeThaiToken p.2
    ⟨token, p.1, occKey text token⟩)

/-- The comparator of `orderTokensByOriginalText`:
`a.idx !== b.idx ? a.idx - b.idx : a.i - b.i` is negative. -/
def decoLt (a b : Decorated) : Bool :=
  if a.idx != b.idx then decide (a.idx < b.idx) else decide (a.i < b.i)

/-- `orderTokensByOriginalText` from ResultPage.tsx. -/
def orderTokensByOriginalText (text : String) (tokens : List String) :
    List String :=
  ((sortStable decoLt (decorate text tokens)).map (·.token)).filter
    (fun t => !(t == ""))

/-- A row of the `SL_word` table. -/
structure WordRow where
  word : String
  category : String
  pose_filename : String
deriving DecidableEq, Repr

/-- `getRole` from ResultPage.tsx, with the `sl_category_role` map modelled as
a partial function from category names: `roleMap.get(key) ?? { role: "O",
priority: 999 }`. -/
def getRole (roleMap : String → Option (Role × Int)) (category : String) :
    Role × Int :=
  (roleMap (normalizeThaiToken category)).getD (.O, 999)

/-- The numeral-category test in the boost of `pickBestRow` (ResultPage). -/
def isNumCatRP (c : String) : Bool := c == "ตัวเลข" || c == "จำนวน"

/-- Boosted priority of a row inside the ResultPage `pickBestRow` comparator:
`ra.priority + boostA`, where the boost is `-1000` on numeral categories when
the (normalized) token is all digits. -/
def rowKey (roleMap : String → Option (Role × Int)) (t : String)
    (r : WordRow) : Int :=
  (getRole roleMap r.category).2 +
    (if isNumberToken t && isNumCatRP r.category then -1000 else 0)

/-- `pickBestRow` from ResultPage.tsx: stable-sort by boosted priority, take
the first row. -/
def pickBestRow (roleMap : String → Option (Role × Int)) (token : String)
    (rows : List WordRow) : Option WordRow :=
  let t := normalizeThaiToken token
  (sortStable (fun a b => decide (rowKey roleMap t a < rowKey roleMap t b))
    rows).head?

/-- `CATEGORY_PRIORITY` from the resolve edge function. -/
def CATEGORY_PRIORITY : List (String × Int) :=
  [("คำทั่วไป", 1), ("กริยา", 2), ("สถานที่", 3), ("จำนวน", 4), ("ตัวเลข", 5),
   ("การเขียนสะกดนิ้วมือ", 6)]

/-- `CATEGORY_PRIORITY[category] ?? 999`. -/
def edgePriority (c : String) : Int := (CATEGORY_PRIORITY.lookup c).getD 999

/-- Boosted priority inside the edge-function `pickBestRow` comparator (the
boost there is only on the `"ตัวเลข"` category). -/
def edgeKey (token : String) (r : WordRow) : Int :=
  edgePriority r.category +
    (if isNumberToken token && r.category == "ตัวเลข" then -1000 else 0)

/-- `pickBestRow` from the resolve edge function. -/
def pickBestRowEdge (token : String) (rows : List WordRow) : Option WordRow :=
  (sortStable (fun a b => decide (edgeKey token a < edgeKey token b))
    rows).head?

/-! ## Generic lemmas about `List.find?` -/

theorem find?_first (p : α → Bool) :
    ∀ (l : List α) (a : α), l.find? p = some a →
      ∃ l1 l2, l = l1 ++ a :: l2 ∧ ∀ x ∈ l1, p x = false := by
  intro l
  induction l with
  | nil => intro a h; simp at h
  | cons b bs ih =>
    intro a h
    cases hp : p b
    · rw [List.find?_cons_of_neg _ (by simp [hp])] at h
      obtain ⟨l1, l2, hsplit, hfirst⟩ := ih a h
      refine ⟨b :: l1, l2, by rw [hsplit]; rfl, ?_⟩
      intro x hx
      rcases List.mem_cons.mp hx with h1 | h1
      · rw [h1]; exact hp
      · exact hfirst x h1
    · rw [List.find?_cons_of_pos _ hp] at h
      injection h with h'
      refine ⟨[], bs, by rw [h']; rfl, ?_⟩
      intro x hx
      exact absurd hx (List.not_mem_nil x)

/-! ## C2: the pattern matcher -/

theorem patternMatches_iff :
    ∀ (pat : List Role) (q : List Role),
      (q.length == pat.length && (q.zip pat).all (fun p => p.1 == p.2)) = true ↔
        q = pat := by
  intro pat
  induction pat with
  | nil =>
    intro q
    cases q <;> simp
  | cons b bs ih =>
    intro q
    cases q with
    | nil => simp
    | cons a as =>
      simp only [List.zip_cons_cons, List.all_cons, List.length_cons,
        Bool.and_eq_true, beq_iff_eq, Nat.succ.injEq, List.cons.injEq]
      constructor
      · rintro ⟨hlen, hab, hall⟩
        exact ⟨hab, (ih as).mp (by simp [hlen, hall])⟩
      · rintro ⟨hab, has⟩
        have := (ih as).mpr has
        simp only [Bool.and_eq_true, beq_iff_eq] at this
        exact ⟨this.1, hab, this.2⟩

theorem patternMatches_eq (rule : ThslRule) (pat : List Role) :
    patternMatches rule pat = true ↔ rule.thaiPattern = pat := by
  rw [patternMatches]
  exact patternMatches_iff pat rule.thaiPattern

/-- C2: `findExactRule` succeeds exactly when some rule's input pattern is
element-for-element (and length-) equal to the tagged sequence's roles with
`"UNK"` removed; the scan is a first-match-wins linear pass over
`THSL_RULES` in table order, with no partial or subsequence matching. -/
theorem findExactRule_spec (tagged : List TaggedWord) :
    ((∃ r, findExactRule tagged = some r) ↔
      ∃ rule ∈ THSL_RULES, rule.thaiPattern = rolesOf tagged) ∧
    (∀ r, findExactRule tagged = some r →
      r ∈ THSL_RULES ∧ r.thaiPattern = rolesOf tagged ∧
      ∃ pre post, THSL_RULES = pre ++ r :: post ∧
        ∀ r' ∈ pre, r'.thaiPattern ≠ rolesOf tagged) := by
  constructor
  · constructor
    · rintro ⟨r, hr⟩
      have h1 := List.find?_some hr
      have h2 := List.mem_of_find?_eq_some hr
      exact ⟨r, h2, (patternMatches_eq r (rolesOf tagged)).mp h1⟩
    · rintro ⟨rule, hmem, heq⟩
      cases hf : findExactRule tagged with
      | some r => exact ⟨r, rfl⟩
      | none =>
        have hnone := List.find?_eq_none.mp hf rule hmem
        exact absurd ((patternMatches_eq rule (rolesOf tagged)).mpr heq) hnone
  · intro r hr
    have hr0 : THSL_RULES.find?
        (fun rule => patternMatches rule (rolesOf tagged)) = some r := hr
    have hps : patternMatches r (rolesOf tagged) = true := by
      have h2 := List.find?_some hr0
      simpa using h2
    refine ⟨List.mem_of_find?_eq_some hr0,
      (patternMatches_eq r (rolesOf tagged)).mp hps, ?_⟩
    obtain ⟨l1, l2, hsplit, hfirst⟩ :=
      find?_first (fun rule => patternMatches rule (rolesOf tagged))
        THSL_RULES r hr0
    refine ⟨l1, l2, hsplit, ?_⟩
    intro r' hr' heq
    have := hfirst r' hr'
    rw [(patternMatches_eq r' (rolesOf tagged)).mpr heq] at this
    cases this

theorem findExactRule_spec_witness :
    ∃ rule ∈ THSL_RULES,
      rule.thaiPattern =
        rolesOf [⟨"a", some .S⟩, ⟨"b", some .V⟩, ⟨"c", some .O⟩] :=
  (findExactRule_spec [⟨"a", some .S⟩, ⟨"b", some .V⟩, ⟨"c", some .O⟩]).1.mp
    ⟨⟨3, [.S, .V, .O], [.plain .O, .plain .S, .plain .V]⟩, by decide⟩

/-! ## C1: the reorderer is a permutation -/

/-- The words of the not-yet-consumed tagged tokens, in original order. -/
def unusedWords (tw : List (Nat × TaggedWord)) (used : List Nat) :
    List String :=
  (tw.filter (fun p => !used.contains p.1)).map (fun p => p.2.word)

theorem pickPair_spec (tw : List (Nat × TaggedWord)) (used : List Nat)
    (r : Role) (p : Nat × TaggedWord) (h : pickPair tw used r = some p) :
    p ∈ tw ∧ used.contains p.1 = false ∧ p.2.role = some r := by
  have h0 : tw.find?
      (fun q => !used.contains q.1 && q.2.role == some r) = some p := h
  have hmem := List.mem_of_find?_eq_some h0
  have hp : (!used.contains p.1 && p.2.role == some r) = true := by
    have h2 := List.find?_some h0
    simpa using h2
  simp only [Bool.and_eq_true, Bool.not_eq_true', beq_iff_eq] at hp
  exact ⟨hmem, hp.1, hp.2⟩

theorem unusedWords_swap :
    ∀ (tw : List (Nat × TaggedWord)), (tw.map Prod.fst).Nodup →
      ∀ (p : Nat × TaggedWord), p ∈ tw →
        ∀ (used : List Nat), used.contains p.1 = false →
          (unusedWords tw used).Perm
            (p.2.word :: unusedWords tw (p.1 :: used)) := by
  intro tw
  induction tw with
  | nil =>
    intro _ p hp
    exact absurd hp (List.not_mem_nil p)
  | cons q tws ih =>
    intro hnd p hp used hu
    have hnd' : (q.1 :: tws.map Prod.fst).Nodup := by simpa using hnd
    have hnd1 : q.1 ∉ tws.map Prod.fst := (List.nodup_cons.mp hnd').1
    have hnd2 : (tws.map Prod.fst).Nodup := (List.nodup_cons.mp hnd').2
    rcases List.mem_cons.mp hp with hpq | hpq
    · subst hpq
      have humem : p.1 ∉ used := by simpa using hu
      have h1 : (!used.contains p.1) = true := by simp [humem]
      have h2 : ¬((!(p.1 :: used).contains p.1) = true) := by simp
      have hrest : tws.filter (fun x => !(p.1 :: used).contains x.1) =
          tws.filter (fun x => !used.contains x.1) := by
        apply List.filter_congr
        intro x hx
        have hxne : x.1 ≠ p.1 := by
          intro hcontra
          exact hnd1 (hcontra ▸ List.mem_map_of_mem Prod.fst hx)
        simp [hxne]
      simp only [unusedWords, List.filter_cons]
      rw [if_pos h1, if_neg h2, hrest, List.map_cons]
    · have hq1 : p.1 ≠ q.1 := by
        intro hcontra
        exact hnd1 (hcontra ▸ List.mem_map_of_mem Prod.fst hpq)
      have hih : (unusedWords tws used).Perm
          (p.2.word :: unusedWords tws (p.1 :: used)) := ih hnd2 p hpq used hu
      simp only [unusedWords] at hih
      cases hcu : used.contains q.1 with
      | true =>
        have hcumem : q.1 ∈ used := by simpa using hcu
        have h1 : ¬((!used.contains q.1) = true) := by simp [hcumem]
        have h2 : ¬((!(p.1 :: used).contains q.1) = true) := by
          simp [hcumem]
        simp only [unusedWords, List.filter_cons]
        rw [if_neg h1, if_neg h2]
        exact hih
      | false =>
        have hcumem : q.1 ∉ used := by simpa using hcu
        have h1 : (!used.contains q.1) = true := by simp [hcumem]
        have h2 : (!(p.1 :: used).contains q.1) = true := by
          simp [hcumem, Ne.symm hq1]
        simp only [unusedWords, List.filter_cons]
        rw [if_pos h1, if_pos h2, List.map_cons, List.map_cons]
        refine List.Perm.trans (hih.cons q.2.word) ?_
        exact List.Perm.swap _ _ _

theorem reorderStep_perm (tw : List (Nat × TaggedWord))
    (hnd : (tw.map Prod.fst).Nodup) (st : List String × List Nat)
    (o : OrderRole) :
    ((reorderStep tw st o).1 ++ unusedWords tw (reorderStep tw st o).2).Perm
      (st.1 ++ unusedWords tw st.2) := by
  obtain ⟨out, used⟩ := st
  have key : ∀ (p : Nat × TaggedWord) (r : Role), pickPair tw used r = some p →
      ((out ++ [p.2.word]) ++ unusedWords tw (p.1 :: used)).Perm
        (out ++ unusedWords tw used) := by
    intro p r hp
    obtain ⟨hmem, hu, _⟩ := pickPair_spec tw used r p hp
    have hswap := unusedWords_swap tw hnd p hmem used hu
    have he : (out ++ [p.2.word]) ++ unusedWords tw (p.1 :: used) =
        out ++ (p.2.word :: unusedWords tw (p.1 :: used)) := by simp
    rw [he]
    exact List.Perm.append_left out hswap.symm
  cases o with
  | plain r =>
    simp only [reorderStep]
    cases hp : pickPair tw used r with
    | some p => simpa using key p r hp
    | none => exact List.Perm.refl _
  | ageYear =>
    simp only [reorderStep]
    cases hpa : pickPair tw used .Age with
    | some p => simpa using key p .Age hpa
    | none =>
      cases hpy : pickPair tw used .Year with
      | some p => simpa using key p .Year hpy
      | none => exact List.Perm.refl _

theorem reorderFold_perm (tw : List (Nat × TaggedWord))
    (hnd : (tw.map Prod.fst).Nodup) :
    ∀ (order : List OrderRole) (st : List String × List Nat),
      ((order.foldl (reorderStep tw) st).1 ++
        unusedWords tw (order.foldl (reorderStep tw) st).2).Perm
        (st.1 ++ unusedWords tw st.2) := by
  intro order
  induction order with
  | nil => intro st; exact List.Perm.refl _
  | cons o os ih =>
    intro st
    have h1 := ih (reorderStep tw st o)
    have h2 := reorderStep_perm tw hnd st o
    simpa [List.foldl_cons] using h1.trans h2

theorem enum_map_word (tagged : List TaggedWord) :
    tagged.enum.map (fun p => p.2.word) = tagged.map (·.word) := by
  rw [show (fun (p : Nat × TaggedWord) => p.2.word) =
    ((fun t : TaggedWord => t.word) ∘ Prod.snd) from rfl]
  rw [← List.map_map, List.enum_map_snd]

theorem enum_fst_nodup (tagged : List TaggedWord) :
    (tagged.enum.map Prod.fst).Nodup := by
  rw [List.enum_map_fst]
  exact List.nodup_range _

theorem unusedWords_nil (tagged : List TaggedWord) :
    unusedWords tagged.enum [] = tagged.map (·.word) := by
  simp only [unusedWords]
  have hfilter : tagged.enum.filter
      (fun p => !([] : List Nat).contains p.1) = tagged.enum := by
    apply List.filter_eq_self.mpr
    intro a _
    simp
  rw [hfilter, enum_map_word]

/-- `reorder` always returns a permutation of the input words. -/
theorem reorder_perm (tagged : List TaggedWord) (order : List OrderRole) :
    (reorder tagged order).Perm (tagged.map (·.word)) := by
  have h := reorderFold_perm tagged.enum (enum_fst_nodup tagged) order ([], [])
  simp only [unusedWords_nil, List.nil_append] at h
  simpa [reorder, unusedWords] using h

/-- C1: on tagged tokens with non-empty words, `reorderByRule` outputs a
permutation of the input tokens' words (same length, same multiset, each
token consumed exactly once); moreover the output is exactly the words
picked while walking the rule's role list (the first component of the
fold's accumulator) followed by `unusedWords` of the indices the walk
actually consumed (its second component) — that is, the tokens not consumed
by the rule's role list are appended at the end — and that leftover suffix
is an order-preserving sublist of the input words. -/
theorem reorderByRule_permutation (tagged : List TaggedWord)
    (order : List OrderRole) (hw : ∀ t ∈ tagged, t.word ≠ "") :
    (reorderByRule tagged order).Perm (tagged.map (·.word)) ∧
    reorderByRule tagged order =
      (order.foldl (reorderStep tagged.enum) ([], [])).1 ++
        unusedWords tagged.enum
          (order.foldl (reorderStep tagged.enum) ([], [])).2 ∧
    (unusedWords tagged.enum
      (order.foldl (reorderStep tagged.enum) ([], [])).2).Sublist
      (tagged.map (·.word)) := by
  have hid : reorderByRule tagged order = reorder tagged order := by
    apply List.filter_eq_self.mpr
    intro w hwmem
    have hmem : w ∈ tagged.map (·.word) :=
      (reorder_perm tagged order).mem_iff.mp hwmem
    obtain ⟨t, ht, rfl⟩ := List.mem_map.mp hmem
    simpa using hw t ht
  refine ⟨?_, ?_, ?_⟩
  · rw [hid]
    exact reorder_perm tagged order
  · rw [hid]
    rfl
  · have hsub : (tagged.enum.filter (fun p =>
        !((order.foldl (reorderStep tagged.enum) ([], [])).2).contains
          p.1)).Sublist tagged.enum := List.filter_sublist _
    have hmap := hsub.map (fun p => p.2.word)
    rw [enum_map_word] at hmap
    exact hmap

theorem reorderByRule_permutation_witness :
    (reorderByRule [⟨"x", some Role.S⟩, ⟨"y", some Role.V⟩]
        [OrderRole.plain Role.S, OrderRole.plain Role.V]).Perm
      (([⟨"x", some Role.S⟩, ⟨"y", some Role.V⟩] : List TaggedWord).map
        (·.word)) ∧
    reorderByRule [⟨"x", some Role.S⟩, ⟨"y", some Role.V⟩]
        [OrderRole.plain Role.S, OrderRole.plain Role.V] =
      ([OrderRole.plain Role.S, OrderRole.plain Role.V].foldl
        (reorderStep
          ([⟨"x", some Role.S⟩, ⟨"y", some Role.V⟩] : List TaggedWord).enum)
        ([], [])).1 ++
        unusedWords
          ([⟨"x", some Role.S⟩, ⟨"y", some Role.V⟩] : List TaggedWord).enum
          (([OrderRole.plain Role.S, OrderRole.plain Role.V].foldl
            (reorderStep
              ([⟨"x", some Role.S⟩,
                ⟨"y", some Role.V⟩] : List TaggedWord).enum)
            ([], [])).2) ∧
    (unusedWords
        ([⟨"x", some Role.S⟩, ⟨"y", some Role.V⟩] : List TaggedWord).enum
        (([OrderRole.plain Role.S, OrderRole.plain Role.V].foldl
          (reorderStep
            ([⟨"x", some Role.S⟩,
              ⟨"y", some Role.V⟩] : List TaggedWord).enum)
          ([], [])).2)).Sublist
      (([⟨"x", some Role.S⟩, ⟨"y", some Role.V⟩] : List TaggedWord).map
        (·.word)) :=
  reorderByRule_permutation [⟨"x", some Role.S⟩, ⟨"y", some Role.V⟩]
    [OrderRole.plain Role.S, OrderRole.plain Role.V] (by decide)

/-! ## C3: the S-V-O and S-NEG-V-O scenarios -/

/-- C3: when tagging yields exactly the roles `[S, V, O]` the engine emits
`[Object, Subject, Verb]` (rule 3); when it yields `[S, NEG, V, O]` it emits
`[Object, Subject, Verb, Negator]` (rule 4). -/
theorem svo_reorders (tokens : List String) (ws wv wo wn : String) :
    (tagTokens tokens = [⟨ws, some .S⟩, ⟨wv, some .V⟩, ⟨wo, some .O⟩] →
      (toThslTokens tokens).thsl = [wo, ws, wv]) ∧
    (tagTokens tokens =
        [⟨ws, some .S⟩, ⟨wn, some .NEG⟩, ⟨wv, some .V⟩, ⟨wo, some .O⟩] →
      (toThslTokens tokens).thsl = [wo, ws, wv, wn]) := by
  constructor
  · intro h
    simp only [toThslTokens, h]
    rfl
  · intro h
    simp only [toThslTokens, h]
    rfl

theorem svo_reorders_witness :
    (toThslTokens ["ฉัน", "กิน", "ข้าว"]).thsl = ["ข้าว", "ฉัน", "กิน"] ∧
    (toThslTokens ["ฉัน", "ไม่", "กิน", "ข้าว"]).thsl =
      ["ข้าว", "ฉัน", "กิน", "ไม่"] :=
  ⟨(svo_reorders ["ฉัน", "กิน", "ข้าว"] "ฉัน" "กิน" "ข้าว" "ไม่").1
      (by decide),
   (svo_reorders ["ฉัน", "ไม่", "กิน", "ข้าว"] "ฉัน" "กิน" "ข้าว" "ไม่").2
      (by decide)⟩

/-! ## C4: repeated objects (rule 5) -/

/-- C4: on roles `[S, V, O, O]` rule 5 matches, and the output places both
Object words consecutively at the front, in their original relative order,
ahead of the Subject word and the Verb word (the `O` slot is repeated in the
rule's output order, so all object tokens are consumed there in turn). -/
theorem collectObjects (ws wv wo1 wo2 : String) :
    findExactRule [⟨ws, some .S⟩, ⟨wv, some .V⟩, ⟨wo1, some .O⟩,
        ⟨wo2, some .O⟩] =
      some ⟨5, [.S, .V, .O, .O],
        [.plain .O, .plain .O, .plain .S, .plain .V]⟩ ∧
    reorder [⟨ws, some .S⟩, ⟨wv, some .V⟩, ⟨wo1, some .O⟩, ⟨wo2, some .O⟩]
      [.plain .O, .plain .O, .plain .S, .plain .V] = [wo1, wo2, ws, wv] ∧
    (ws ≠ "" → wv ≠ "" → wo1 ≠ "" → wo2 ≠ "" →
      orderedTokens [⟨ws, some .S⟩, ⟨wv, some .V⟩, ⟨wo1, some .O⟩,
        ⟨wo2, some .O⟩] = [wo1, wo2, ws, wv]) := by
  refine ⟨rfl, rfl, ?_⟩
  intro h1 h2 h3 h4
  show List.filter (fun w => !(w == "")) [wo1, wo2, ws, wv] =
    [wo1, wo2, ws, wv]
  apply List.filter_eq_self.mpr
  intro w hw
  simp only [List.mem_cons, List.not_mem_nil, or_false] at hw
  rcases hw with rfl | rfl | rfl | rfl <;> simp [h1, h2, h3, h4]

theorem collectObjects_witness :
    orderedTokens [⟨"a", some Role.S⟩, ⟨"b", some Role.V⟩,
      ⟨"c", some Role.O⟩, ⟨"d", some Role.O⟩] = ["c", "d", "a", "b"] :=
  (collectObjects "a" "b" "c" "d").2.2 (by decide) (by decide) (by decide)
    (by decide)

/-! ## C5: no-match fallback -/

/-- C5: when no rule's input pattern equals the role list, both entry points
return the tagged words unchanged, in original order (no match is a fallback,
not an error); in particular `[PP(Place), V]` matches no rule. -/
theorem noMatchFallback :
    (∀ tagged : List TaggedWord, findExactRule tagged = none →
      orderedTokens tagged = tagged.map (·.word)) ∧
    (∀ tokens : List String, findExactRule (tagTokens tokens) = none →
      (toThslTokens tokens).thsl = (tagTokens tokens).map (·.word)) ∧
    (∀ wp wv : String,
      findExactRule [⟨wp, some .PPPlace⟩, ⟨wv, some .V⟩] = none ∧
      orderedTokens [⟨wp, some .PPPlace⟩, ⟨wv, some .V⟩] = [wp, wv]) := by
  refine ⟨?_, ?_, ?_⟩
  · intro tagged h
    simp only [orderedTokens, h]
  · intro tokens h
    simp only [toThslTokens, h]
  · intro wp wv
    exact ⟨rfl, rfl⟩

theorem noMatchFallback_witness :
    orderedTokens [⟨"บ้าน", some Role.PPPlace⟩, ⟨"ไป", some Role.V⟩] =
      ["บ้าน", "ไป"] ∧
    (toThslTokens ["บ้าน", "ไป"]).thsl =
      (tagTokens ["บ้าน", "ไป"]).map (·.word) :=
  ⟨by
    have h := noMatchFallback.1 [⟨"บ้าน", some Role.PPPlace⟩,
      ⟨"ไป", some Role.V⟩] (by decide)
    simpa using h,
   noMatchFallback.2.1 ["บ้าน", "ไป"] (by decide)⟩

/-! ## C6: the lexical resolver's numeral override -/

/-- The comparator of the ResultPage `pickBestRow`, as a boolean strict
order on rows. -/
def rowLt (roleMap : String → Option (Role × Int)) (t : String)
    (a b : WordRow) : Bool :=
  decide (rowKey roleMap t a < rowKey roleMap t b)

theorem rowLt_co (roleMap : String → Option (Role × Int)) (t : String) :
    ∀ x y z, rowLt roleMap t x z = true →
      rowLt roleMap t x y = true ∨ rowLt roleMap t y z = true := by
  intro x y z h
  simp only [rowLt, decide_eq_true_eq] at h ⊢
  omega

theorem rowLt_asym (roleMap : String → Option (Role × Int)) (t : String) :
    ∀ x y, rowLt roleMap t x y = true → rowLt roleMap t y x = false := by
  intro x y h
  simp only [rowLt, decide_eq_true_eq] at h
  simp only [rowLt, decide_eq_false_iff_not]
  omega

/-- C6 (amended): `pickBestRow` returns the first row, in original candidate
order, whose boosted priority is minimal (the sort is stable, so ties keep
the original order); and when the normalized token is a pure digit string,
some candidate is in a numeral category (`"ตัวเลข"` or `"จำนวน"`), and every
candidate's category priority lies between 0 and 999 (999 being the default
for categories missing from the table), the selected row is in a numeral
category — the `-1000` boost then dominates every priority. -/
theorem pickBestRow_numeral (roleMap : String → Option (Role × Int))
    (token : String) (rows : List WordRow)
    (hd : isNumberToken (normalizeThaiToken token) = true)
    (hnum : ∃ r ∈ rows, isNumCatRP r.category = true)
    (hbound : ∀ r ∈ rows, 0 ≤ (getRole roleMap r.category).2 ∧
      (getRole roleMap r.category).2 ≤ 999) :
    pickBestRow roleMap token rows =
      firstMin (rowLt roleMap (normalizeThaiToken token)) rows ∧
    ∃ m, pickBestRow roleMap token rows = some m ∧
      isNumCatRP m.category = true := by
  have hchar : pickBestRow roleMap token rows =
      firstMin (rowLt roleMap (normalizeThaiToken token)) rows :=
    sortStable_head (rowLt roleMap (normalizeThaiToken token)) rows
  refine ⟨hchar, ?_⟩
  obtain ⟨c, hc, hcnum⟩ := hnum
  have hne : rows ≠ [] := by
    intro h
    rw [h] at hc
    exact absurd hc (List.not_mem_nil c)
  cases hm : firstMin (rowLt roleMap (normalizeThaiToken token)) rows with
  | none =>
    exact absurd ((firstMin_eq_none _ rows).mp hm) hne
  | some m =>
    refine ⟨m, hchar.trans hm, ?_⟩
    by_contra hmnum
    have hmnum' : isNumCatRP m.category = false := by
      cases hv : isNumCatRP m.category
      · rfl
      · exact absurd hv hmnum
    have hmmem := firstMin_mem _ rows m hm
    have hmin := firstMin_minimal _ (rowLt_co roleMap _) (rowLt_asym roleMap _)
      rows m hm c hc
    have hkc : rowKey roleMap (normalizeThaiToken token) c ≤ -1 := by
      have hb := (hbound c hc).2
      simp [rowKey, hd, hcnum]
      omega
    have hkm : 0 ≤ rowKey roleMap (normalizeThaiToken token) m := by
      have hb := (hbound m hmmem).1
      simp [rowKey, hd, hmnum']
      omega
    have hlt : rowLt roleMap (normalizeThaiToken token) c m = true := by
      simp only [rowLt, decide_eq_true_eq]
      omega
    rw [hmin] at hlt
    cases hlt

/-- C6 counterexample to the claim as stated: with all priorities
non-negative but the numeral category's priority at 2000, the boosted
priority `2000 - 1000 = 1000` loses to a non-numeral candidate of priority
`0`, so the resolver picks the non-numeral row for the digit token `"5"`. -/
theorem pickBestRow_numeral_cex :
    isNumberToken (normalizeThaiToken "5") = true ∧
    isNumCatRP "ตัวเลข" = true ∧
    isNumCatRP "กริยา" = false ∧
    (getRole (fun c => if c = "ตัวเลข" then some (Role.Number, (2000 : Int))
      else if c = "กริยา" then some (Role.V, (0 : Int)) else none)
      "ตัวเลข").2 = 2000 ∧
    (getRole (fun c => if c = "ตัวเลข" then some (Role.Number, (2000 : Int))
      else if c = "กริยา" then some (Role.V, (0 : Int)) else none)
      "กริยา").2 = 0 ∧
    (0 : Int) ≤ 2000 ∧
    pickBestRow (fun c => if c = "ตัวเลข" then some (Role.Number, (2000 : Int))
      else if c = "กริยา" then some (Role.V, (0 : Int)) else none) "5"
      [⟨"5", "ตัวเลข", "f2"⟩, ⟨"5", "กริยา", "f1"⟩] =
      some ⟨"5", "กริยา", "f1"⟩ := by
  refine ⟨by decide, by decide, by decide, by decide, by decide, by decide,
    by decide⟩

theorem pickBestRow_numeral_witness :
    pickBestRow (fun c => if c = "ตัวเลข" then some (Role.Number, (5 : Int))
        else if c = "กริยา" then some (Role.V, (2 : Int)) else none) "5"
      [⟨"5", "กริยา", "f1"⟩, ⟨"5", "ตัวเลข", "f2"⟩] =
      firstMin (rowLt (fun c => if c = "ตัวเลข" then
          some (Role.Number, (5 : Int))
        else if c = "กริยา" then some (Role.V, (2 : Int)) else none)
        (normalizeThaiToken "5"))
      [⟨"5", "กริยา", "f1"⟩, ⟨"5", "ตัวเลข", "f2"⟩] ∧
    ∃ m, pickBestRow (fun c => if c = "ตัวเลข" then
        some (Role.Number, (5 : Int))
        else if c = "กริยา" then some (Role.V, (2 : Int)) else none) "5"
      [⟨"5", "กริยา", "f1"⟩, ⟨"5", "ตัวเลข", "f2"⟩] = some m ∧
      isNumCatRP m.category = true :=
  pickBestRow_numeral _ "5" [⟨"5", "กริยา", "f1"⟩, ⟨"5", "ตัวเลข", "f2"⟩]
    (by decide) (by decide) (by decide)

/-! ## C7: the substring-dominance filter -/

theorem startsSeq_iff :
    ∀ (needle hay : List Char),
      startsSeq hay needle = true ↔ ∃ rest, hay = needle ++ rest := by
  intro needle
  induction needle with
  | nil =>
    intro hay
    simp [startsSeq]
  | cons d ds ih =>
    intro hay
    cases hay with
    | nil =>
      simp [startsSeq]
    | cons c cs =>
      simp only [startsSeq, Bool.and_eq_true, beq_iff_eq, ih,
        List.cons_append, List.cons.injEq]
      constructor
      · rintro ⟨hcd, rest, hr⟩
        exact ⟨rest, hcd, hr⟩
      · rintro ⟨rest, hcd, hr⟩
        exact ⟨hcd, rest, hr⟩

theorem hasSeq_iff :
    ∀ (hay needle : List Char),
      hasSeq hay needle = true ↔ ∃ pre post, hay = pre ++ needle ++ post := by
  intro hay
  induction hay with
  | nil =>
    intro needle
    cases needle with
    | nil => simp [hasSeq]
    | cons d ds => simp [hasSeq]
  | cons c cs ih =>
    intro needle
    simp only [hasSeq, Bool.or_eq_true, startsSeq_iff, ih]
    constructor
    · rintro (⟨rest, hr⟩ | ⟨pre, post, hp⟩)
      · exact ⟨[], rest, by simp [hr]⟩
      · exact ⟨c :: pre, post, by simp [hp]⟩
    · rintro ⟨pre, post, hp⟩
      cases pre with
      | nil =>
        left
        exact ⟨post, by simpa using hp⟩
      | cons x xs =>
        right
        rw [List.cons_append, List.cons_append] at hp
        injection hp with h1 h2
        exact ⟨xs, post, h2⟩

theorem hasSeq_length {k t : List Char} (h : hasSeq k t = true) :
    t.length ≤ k.length := by
  obtain ⟨pre, post, rfl⟩ := (hasSeq_iff k t).mp h
  simp
  omega

theorem hasSeq_eq_of_length {k t : List Char} (h : hasSeq k t = true)
    (hl : k.length ≤ t.length) : k = t := by
  obtain ⟨pre, post, rfl⟩ := (hasSeq_iff _ t).mp h
  simp at hl
  have hpre : pre = [] := List.length_eq_zero.mp (by omega)
  have hpost : post = [] := List.length_eq_zero.mp (by omega)
  simp [hpre, hpost]

theorem hasSeq_trans {a b c : List Char} (h1 : hasSeq b a = true)
    (h2 : hasSeq c b = true) : hasSeq c a = true := by
  obtain ⟨p1, q1, rfl⟩ := (hasSeq_iff b a).mp h1
  obtain ⟨p2, q2, rfl⟩ := (hasSeq_iff c _).mp h2
  exact (hasSeq_iff _ a).mpr ⟨p2 ++ p1, q1 ++ q2, by simp⟩

theorem strictSubOf_length {t k : String} (h : strictSubOf t k = true) :
    t.length < k.length := by
  simp only [strictSubOf, Bool.and_eq_true, Bool.not_eq_true',
    beq_eq_false_iff_ne] at h
  obtain ⟨hseq, hne⟩ := h
  rcases Nat.lt_or_ge t.length k.length with hlt | hge
  · exact hlt
  · exfalso
    have hdata : k.data = t.data := hasSeq_eq_of_length hseq hge
    exact hne (String.ext hdata)

theorem strictSubOf_irrefl (t : String) : strictSubOf t t = false := by
  simp [strictSubOf]

theorem strictSubOf_trans {a b c : String} (h1 : strictSubOf a b = true)
    (h2 : strictSubOf b c = true) : strictSubOf a c = true := by
  have hl1 := strictSubOf_length h1
  have hl2 := strictSubOf_length h2
  simp only [strictSubOf, Bool.and_eq_true, Bool.not_eq_true',
    beq_eq_false_iff_ne] at h1 h2 ⊢
  refine ⟨hasSeq_trans h1.1 h2.1, ?_⟩
  intro hce
  rw [hce] at hl2
  omega

theorem keepLoop_mono :
    ∀ (l kept : List String), ∀ x ∈ kept, x ∈ keepLoop l kept := by
  intro l
  induction l with
  | nil => intro kept x hx; simpa [keepLoop] using hx
  | cons t rest ih =>
    intro kept x hx
    cases hany : kept.any (fun k => strictSubOf t k) with
    | true =>
      simp only [keepLoop, hany, if_true]
      exact ih kept x hx
    | false =>
      simp only [keepLoop, hany, Bool.false_eq_true, if_false]
      exact ih (kept ++ [t]) x (by simp [hx])

theorem keepLoop_subset :
    ∀ (l kept : List String), ∀ x ∈ keepLoop l kept, x ∈ kept ∨ x ∈ l := by
  intro l
  induction l with
  | nil => intro kept x hx; left; simpa [keepLoop] using hx
  | cons t rest ih =>
    intro kept x hx
    cases hany : kept.any (fun k => strictSubOf t k) with
    | true =>
      simp only [keepLoop, hany, if_true] at hx
      rcases ih kept x hx with h | h
      · left; exact h
      · right; exact List.mem_cons_of_mem t h
    | false =>
      simp only [keepLoop, hany, Bool.false_eq_true, if_false] at hx
      rcases ih (kept ++ [t]) x hx with h | h
      · rcases List.mem_append.mp h with h1 | h1
        · left; exact h1
        · right; simp at h1; simp [h1]
      · right; exact List.mem_cons_of_mem t h

theorem keepLoop_dropped :
    ∀ (l kept : List String) (t : String), t ∈ l → t ∉ keepLoop l kept →
      ∃ k ∈ keepLoop l kept, strictSubOf t k = true := by
  intro l
  induction l with
  | nil =>
    intro kept t ht
    exact absurd ht (List.not_mem_nil t)
  | cons u rest ih =>
    intro kept t ht hnot
    cases hany : kept.any (fun k => strictSubOf u k) with
    | true =>
      simp only [keepLoop, hany, if_true] at hnot ⊢
      rcases List.mem_cons.mp ht with h1 | htr
      · subst h1
        obtain ⟨k, hk, hsub⟩ := List.any_eq_true.mp hany
        exact ⟨k, keepLoop_mono rest kept k hk, hsub⟩
      · exact ih kept t htr hnot
    | false =>
      simp only [keepLoop, hany, Bool.false_eq_true, if_false] at hnot ⊢
      rcases List.mem_cons.mp ht with h1 | htr
      · subst h1
        exact absurd (keepLoop_mono rest (kept ++ [t]) t (by simp)) hnot
      · exact ih (kept ++ [u]) t htr hnot

theorem keepLoop_maximal :
    ∀ (l kept : List String),
      l.Pairwise (fun a b => b.length ≤ a.length) →
      (∀ x ∈ kept, ∀ y ∈ kept, strictSubOf x y = false) →
      (∀ k ∈ kept, ∀ u ∈ l, u.length ≤ k.length) →
      ∀ x ∈ keepLoop l kept, ∀ y ∈ keepLoop l kept,
        strictSubOf x y = false := by
  intro l
  induction l with
  | nil =>
    intro kept _ hA _ x hx y hy
    simp only [keepLoop] at hx hy
    exact hA x hx y hy
  | cons t rest ih =>
    intro kept hpw hA hB x hx y hy
    have hpw1 : ∀ u ∈ rest, u.length ≤ t.length :=
      (List.pairwise_cons.mp hpw).1
    have hpw2 : rest.Pairwise (fun a b => b.length ≤ a.length) :=
      (List.pairwise_cons.mp hpw).2
    cases hany : kept.any (fun k => strictSubOf t k) with
    | true =>
      simp only [keepLoop, hany, if_true] at hx hy
      exact ih kept hpw2 hA
        (fun k hk u hu => hB k hk u (List.mem_cons_of_mem t hu)) x hx y hy
    | false =>
      simp only [keepLoop, hany, Bool.false_eq_true, if_false] at hx hy
      have hnosub : ∀ k ∈ kept, strictSubOf t k = false := by
        intro k hk
        cases hv : strictSubOf t k with
        | false => rfl
        | true =>
          have : kept.any (fun k => strictSubOf t k) = true :=
            List.any_eq_true.mpr ⟨k, hk, hv⟩
          rw [this] at hany
          cases hany
      have hA' : ∀ a ∈ kept ++ [t], ∀ b ∈ kept ++ [t],
          strictSubOf a b = false := by
        intro a ha b hb
        rcases List.mem_append.mp ha with ha1 | ha1
        · rcases List.mem_append.mp hb with hb1 | hb1
          · exact hA a ha1 b hb1
          · simp at hb1
            subst hb1
            cases hv : strictSubOf a b with
            | false => rfl
            | true =>
              have hlen := strictSubOf_length hv
              have := hB a ha1 b (List.mem_cons_self b rest)
              omega
        · simp at ha1
          subst ha1
          rcases List.mem_append.mp hb with hb1 | hb1
          · exact hnosub b hb1
          · simp at hb1
            subst hb1
            exact strictSubOf_irrefl _
      have hB' : ∀ k ∈ kept ++ [t], ∀ u ∈ rest, u.length ≤ k.length := by
        intro k hk u hu
        rcases List.mem_append.mp hk with hk1 | hk1
        · exact hB k hk1 u (List.mem_cons_of_mem t hu)
        · simp at hk1
          subst hk1
          exact hpw1 u hu
      exact ih (kept ++ [t]) hpw2 hA' hB' x hx y hy

/-- The length comparator of `dropSubTokens` (`b.length - a.length`, i.e.
longest first). -/
def lenLt (a b : String) : Bool := decide (b.length < a.length)

theorem lenLt_co : ∀ x y z : String,
    lenLt x z = true → lenLt x y = true ∨ lenLt y z = true := by
  intro x y z h
  simp only [lenLt, decide_eq_true_eq] at h ⊢
  omega

theorem lenLt_asym : ∀ x y : String,
    lenLt x y = true → lenLt y x = false := by
  intro x y h
  simp only [lenLt, decide_eq_true_eq] at h
  simp only [lenLt, decide_eq_false_iff_not]
  omega

theorem keepFilter_spec (tks : List String) :
    ((tks.filter
      (fun t => (keepLoop (sortStable lenLt tks) []).contains t)).Sublist
        tks) ∧
    (∀ t ∈ tks,
      t ∈ tks.filter
          (fun t => (keepLoop (sortStable lenLt tks) []).contains t) ↔
        ¬∃ k ∈ tks.filter
          (fun t => (keepLoop (sortStable lenLt tks) []).contains t),
          strictSubOf t k = true) := by
  have hsorted : (sortStable lenLt tks).Pairwise
      (fun x y : String => y.length ≤ x.length) := by
    have hpw := sortStable_pairwise lenLt lenLt_co lenLt_asym tks
    refine hpw.imp ?_
    intro a b h
    simp only [lenLt, decide_eq_false_iff_not] at h
    omega
  have hmax : ∀ x ∈ keepLoop (sortStable lenLt tks) [],
      ∀ y ∈ keepLoop (sortStable lenLt tks) [], strictSubOf x y = false :=
    keepLoop_maximal (sortStable lenLt tks) [] hsorted
      (fun x hx => absurd hx (List.not_mem_nil x))
      (fun k hk => absurd hk (List.not_mem_nil k))
  constructor
  · exact List.filter_sublist _
  · intro t ht
    constructor
    · rintro htout ⟨k, hkout, hsub⟩
      have htK : t ∈ keepLoop (sortStable lenLt tks) [] := by
        have := (List.mem_filter.mp htout).2
        simpa using this
      have hkK : k ∈ keepLoop (sortStable lenLt tks) [] := by
        have := (List.mem_filter.mp hkout).2
        simpa using this
      have hcontra := hmax t htK k hkK
      rw [hsub] at hcontra
      cases hcontra
    · intro hno
      by_contra htout
      have htK : t ∉ keepLoop (sortStable lenLt tks) [] := by
        intro hcontra
        exact htout (List.mem_filter.mpr ⟨ht, by simpa using hcontra⟩)
      have htsorted : t ∈ sortStable lenLt tks :=
        (sortStable_perm lenLt tks).mem_iff.mpr ht
      obtain ⟨k, hkK, hsub⟩ :=
        keepLoop_dropped (sortStable lenLt tks) [] t htsorted htK
      have hk_tks : k ∈ tks := by
        rcases keepLoop_subset (sortStable lenLt tks) [] k hkK with h | h
        · exact absurd h (List.not_mem_nil k)
        · exact (sortStable_perm lenLt tks).mem_iff.mp h
      exact hno ⟨k, List.mem_filter.mpr ⟨hk_tks, by simpa using hkK⟩, hsub⟩

/-- C7: `dropSubTokens` keeps the surviving tokens in their original relative
order (a sublist of the deduplicated normalized input), and a token survives
exactly when it is not a strict substring of another surviving token; on
`["โทรศัพท์บ้าน", "โทรศัพท์", "บ้าน"]` only the compound survives. -/
theorem dropSubTokens_spec (tokens : List String) :
    (dropSubTokens tokens).Sublist (uniqPreserveOrderRP
      ((tokens.map normalizeThaiToken).filter (fun s => !(s == "")))) ∧
    (∀ t ∈ uniqPreserveOrderRP
        ((tokens.map normalizeThaiToken).filter (fun s => !(s == ""))),
      (t ∈ dropSubTokens tokens ↔
        ¬∃ k ∈ dropSubTokens tokens, strictSubOf t k = true)) ∧
    dropSubTokens ["โทรศัพท์บ้าน", "โทรศัพท์", "บ้าน"] = ["โทรศัพท์บ้าน"] := by
  refine ⟨?_, ?_, by decide⟩
  · exact (keepFilter_spec _).1
  · exact (keepFilter_spec _).2

theorem dropSubTokens_spec_witness :
    "โทรศัพท์" ∈ dropSubTokens ["โทรศัพท์บ้าน", "โทรศัพท์", "บ้าน"] ↔
      ¬∃ k ∈ dropSubTokens ["โทรศัพท์บ้าน", "โทรศัพท์", "บ้าน"],
        strictSubOf "โทรศัพท์" k = true :=
  (dropSubTokens_spec ["โทรศัพท์บ้าน", "โทรศัพท์", "บ้าน"]).2.1 "โทรศัพท์"
    (by decide)

/-! ## C8: ordering tokens by first occurrence in the original text -/

theorem decoLt_iff (a b : Decorated) :
    decoLt a b = true ↔
      a.idx < b.idx ∨ (a.idx = b.idx ∧ a.i < b.i) := by
  simp only [decoLt]
  by_cases h : a.idx = b.idx
  · rw [if_neg (by simp [h])]
    simp [h]
  · rw [if_pos (by simp [h])]
    simp only [decide_eq_true_eq]
    constructor
    · intro h1
      exact Or.inl h1
    · rintro (h1 | ⟨h1, _⟩)
      · exact h1
      · exact absurd h1 h

theorem decoLt_co : ∀ x y z : Decorated,
    decoLt x z = true → decoLt x y = true ∨ decoLt y z = true := by
  intro x y z h
  rw [decoLt_iff] at h
  rw [decoLt_iff, decoLt_iff]
  omega

theorem decoLt_asym : ∀ x y : Decorated,
    decoLt x y = true → decoLt y x = false := by
  intro x y h
  rw [decoLt_iff] at h
  cases hv : decoLt y x with
  | false => rfl
  | true =>
    rw [decoLt_iff] at hv
    omega

theorem decorate_map_token (text : String) (tokens : List String) :
    (decorate text tokens).map (·.token) = tokens.map normalizeThaiToken := by
  simp only [decorate, List.map_map]
  rw [show ((fun d : Decorated => d.token) ∘
      (fun p : Nat × String =>
        (⟨normalizeThaiToken p.2, p.1,
          occKey text (normalizeThaiToken p.2)⟩ : Decorated))) =
    (normalizeThaiToken ∘ Prod.snd) from rfl]
  rw [← List.map_map, List.enum_map_snd]

theorem decorate_map_i (text : String) (tokens : List String) :
    (decorate text tokens).map (·.i) = List.range tokens.length := by
  simp only [decorate, List.map_map]
  rw [show ((fun d : Decorated => d.i) ∘
      (fun p : Nat × String =>
        (⟨normalizeThaiToken p.2, p.1,
          occKey text (normalizeThaiToken p.2)⟩ : Decorated))) =
    Prod.fst from rfl]
  rw [List.enum_map_fst]

theorem decorate_idx (text : String) (tokens : List String) :
    ∀ d ∈ decorate text tokens, d.idx = occKey text d.token := by
  intro d hd
  simp only [decorate, List.mem_map] at hd
  obtain ⟨p, _, rfl⟩ := hd
  rfl

theorem decorate_length (text : String) (tokens : List String) :
    (decorate text tokens).length = tokens.length := by
  simp [decorate]

theorem decorate_indexOf (text : String) (tokens : List String)
    (hnd : (tokens.map normalizeThaiToken).Nodup) :
    ∀ d ∈ decorate text tokens,
      (tokens.map normalizeThaiToken).indexOf d.token = d.i := by
  intro d hd
  obtain ⟨j, hj, rfl⟩ := List.mem_iff_getElem.mp hd
  have hjt : j < tokens.length := by
    rw [← decorate_length text tokens]
    exact hj
  have hjn : j < (tokens.map normalizeThaiToken).length := by
    simpa using hjt
  have hjm1 : j < ((decorate text tokens).map (·.token)).length := by
    simpa using hj
  have hjm2 : j < ((decorate text tokens).map (·.i)).length := by
    simpa using hj
  have htok : (decorate text tokens)[j].token =
      (tokens.map normalizeThaiToken)[j] := by
    have h1 : ((decorate text tokens).map (·.token))[j]? =
        some ((decorate text tokens)[j].token) := by
      rw [List.getElem?_map, List.getElem?_eq_getElem hj]
      rfl
    rw [decorate_map_token text tokens] at h1
    rw [List.getElem?_eq_getElem hjn] at h1
    injection h1 with h1
    exact h1.symm
  have hi : (decorate text tokens)[j].i = j := by
    have h1 : ((decorate text tokens).map (·.i))[j]? =
        some ((decorate text tokens)[j].i) := by
      rw [List.getElem?_map, List.getElem?_eq_getElem hj]
      rfl
    rw [decorate_map_i text tokens] at h1
    rw [List.getElem?_range hjt] at h1
    injection h1 with h1
    exact h1.symm
  rw [htok, hi]
  exact List.indexOf_getElem hnd j hjn

/-- C8 (amended): provided the surviving tokens are unique and non-empty
after normalization, and every present token first occurs before offset
`10^15` (the sentinel the code assigns to absent tokens),
`orderTokensByOriginalText` returns a permutation of the normalized tokens,
sorted by first-occurrence offset with ties broken by original input
position, and with every absent token after all present ones. -/
theorem orderTokens_spec (text : String) (tokens : List String)
    (hnd : (tokens.map normalizeThaiToken).Nodup)
    (hne : ∀ t ∈ tokens.map normalizeThaiToken, t ≠ "")
    (hb : ∀ t ∈ tokens.map normalizeThaiToken,
      firstOcc (normalizeThaiText text).data t.data = none ∨
        occKey text t < 10 ^ 15) :
    (orderTokensByOriginalText text tokens).Perm
      (tokens.map normalizeThaiToken) ∧
    (orderTokensByOriginalText text tokens).Pairwise
      (fun a b => occKey text a < occKey text b ∨
        (occKey text a = occKey text b ∧
          (tokens.map normalizeThaiToken).indexOf a <
            (tokens.map normalizeThaiToken).indexOf b)) ∧
    (orderTokensByOriginalText text tokens).Pairwise
      (fun a b => firstOcc (normalizeThaiText text).data a.data = none →
        firstOcc (normalizeThaiText text).data b.data = none) := by
  have hperm : (sortStable decoLt (decorate text tokens)).Perm
      (decorate text tokens) := sortStable_perm _ _
  have hmapperm : ((sortStable decoLt
      (decorate text tokens)).map (·.token)).Perm
      (tokens.map normalizeThaiToken) := by
    have h := hperm.map (·.token)
    rwa [decorate_map_token] at h
  have hout : orderTokensByOriginalText text tokens =
      (sortStable decoLt (decorate text tokens)).map (·.token) := by
    apply List.filter_eq_self.mpr
    intro w hw
    have hwmem : w ∈ tokens.map normalizeThaiToken := hmapperm.mem_iff.mp hw
    simpa using hne w hwmem
  have hmem_i : ∀ d ∈ sortStable decoLt (decorate text tokens),
      d ∈ decorate text tokens := fun d hd => hperm.mem_iff.mp hd
  have hpw1 : (sortStable decoLt (decorate text tokens)).Pairwise
      (fun x y => decoLt y x = false) :=
    sortStable_pairwise decoLt decoLt_co decoLt_asym _
  have hSnodupi : ((sortStable decoLt
      (decorate text tokens)).map (·.i)).Nodup := by
    have h1 := hperm.map (fun d : Decorated => d.i)
    have h2 : ((decorate text tokens).map (·.i)).Nodup := by
      rw [decorate_map_i]
      exact List.nodup_range _
    exact h1.nodup_iff.mpr h2
  have hpw2 : (sortStable decoLt (decorate text tokens)).Pairwise
      (fun x y => x.i ≠ y.i) := List.pairwise_map.mp hSnodupi
  have hstrict : (sortStable decoLt (decorate text tokens)).Pairwise
      (fun x y => decoLt x y = true) := by
    refine List.Pairwise.imp ?_ (hpw1.and hpw2)
    rintro a b ⟨h1, h2⟩
    have h1' : ¬(b.idx < a.idx ∨ (b.idx = a.idx ∧ b.i < a.i)) := by
      rw [← decoLt_iff]
      simp [h1]
    rw [decoLt_iff]
    omega
  have hpw3 : (sortStable decoLt (decorate text tokens)).Pairwise
      (fun x y => occKey text x.token < occKey text y.token ∨
        (occKey text x.token = occKey text y.token ∧
          (tokens.map normalizeThaiToken).indexOf x.token <
            (tokens.map normalizeThaiToken).indexOf y.token)) := by
    refine List.Pairwise.imp_of_mem ?_ hstrict
    intro a b ha hb' hab
    rw [decoLt_iff] at hab
    rw [← decorate_idx text tokens a (hmem_i a ha),
      ← decorate_idx text tokens b (hmem_i b hb'),
      decorate_indexOf text tokens hnd a (hmem_i a ha),
      decorate_indexOf text tokens hnd b (hmem_i b hb')]
    exact hab
  refine ⟨?_, ?_, ?_⟩
  · rw [hout]
    exact hmapperm
  · rw [hout, List.pairwise_map]
    exact hpw3
  · rw [hout, List.pairwise_map]
    refine List.Pairwise.imp_of_mem ?_ hpw3
    intro a b ha hb' hab habs
    have hbtok : b.token ∈ tokens.map normalizeThaiToken := by
      have h := List.mem_map_of_mem (fun d : Decorated => d.token)
        (hmem_i b hb')
      rwa [decorate_map_token] at h
    have hka : occKey text a.token = 10 ^ 15 := by
      simp [occKey, habs]
    rcases hb b.token hbtok with h | h
    · exact h
    · exfalso
      rcases hab with h1 | ⟨h1, _⟩ <;> omega

theorem firstOcc_replicate_b (n : Nat) :
    firstOcc (List.replicate n 'a' ++ ['b']) ['b'] = some n := by
  induction n with
  | zero => rfl
  | succ n ih =>
    rw [List.replicate_succ, List.cons_append, firstOcc]
    rw [if_neg (by simp [startsSeq])]
    rw [ih]
    rfl

theorem firstOcc_replicate_c (n : Nat) :
    firstOcc (List.replicate n 'a' ++ ['b']) ['c'] = none := by
  induction n with
  | zero => rfl
  | succ n ih =>
    rw [List.replicate_succ, List.cons_append, firstOcc]
    rw [if_neg (by simp [startsSeq])]
    rw [ih]
    rfl

/-- A text whose only `'b'` sits at character offset `10^15 + 1` — past the
sentinel index `1e15` the code uses for "absent". -/
def hugeText : String := ⟨List.replicate (10 ^ 15 + 1) 'a' ++ ['b']⟩

theorem filter_zw_replicate (n : Nat) :
    (List.replicate n 'a' ++ ['b']).filter (fun c => !isZWChar c) =
      List.replicate n 'a' ++ ['b'] := by
  apply List.filter_eq_self.mpr
  intro c hc
  rcases List.mem_append.mp hc with h | h
  · rw [List.eq_of_mem_replicate h]
    decide
  · simp at h
    rw [h]
    decide

theorem normalizeThaiText_hugeText : normalizeThaiText hugeText = hugeText :=
  congrArg String.mk (filter_zw_replicate (10 ^ 15 + 1))

theorem occKey_of_some (text token : String) (n : Nat)
    (h : firstOcc (normalizeThaiText text).data token.data = some n) :
    occKey text token = n := by
  unfold occKey
  rw [h]

theorem occKey_of_none (text token : String)
    (h : firstOcc (normalizeThaiText text).data token.data = none) :
    occKey text token = 10 ^ 15 := by
  unfold occKey
  rw [h]

theorem occKey_hugeText_b : occKey hugeText "b" = 10 ^ 15 + 1 :=
  occKey_of_some hugeText "b" (10 ^ 15 + 1) (by
    rw [normalizeThaiText_hugeText]
    exact firstOcc_replicate_b (10 ^ 15 + 1))

theorem occKey_hugeText_c : occKey hugeText "c" = 10 ^ 15 :=
  occKey_of_none hugeText "c" (by
    rw [normalizeThaiText_hugeText]
    exact firstOcc_replicate_c (10 ^ 15 + 1))

theorem decorate_hugeText :
    decorate hugeText ["b", "c"] =
      [⟨"b", 0, 10 ^ 15 + 1⟩, ⟨"c", 1, 10 ^ 15⟩] := by
  have henum : (["b", "c"] : List String).enum = [(0, "b"), (1, "c")] := rfl
  simp only [decorate, henum, List.map_cons, List.map_nil]
  have hnb : normalizeThaiToken "b" = "b" := rfl
  have hnc : normalizeThaiToken "c" = "c" := rfl
  rw [hnb, hnc, occKey_hugeText_b, occKey_hugeText_c]

/-- C8 counterexample to the claim as stated: in `hugeText` the token `"b"`
does occur (first at offset `10^15 + 1`) and `"c"` does not, yet the absent
`"c"` is sorted before the present `"b"`, because the code's sentinel for
"absent" is the finite index `1e15`. -/
theorem orderTokens_cex :
    (firstOcc (normalizeThaiText hugeText).data
      (normalizeThaiToken "b").data).isSome = true ∧
    firstOcc (normalizeThaiText hugeText).data
      (normalizeThaiToken "c").data = none ∧
    orderTokensByOriginalText hugeText ["b", "c"] = ["c", "b"] := by
  refine ⟨?_, ?_, ?_⟩
  · have h1 : firstOcc (normalizeThaiText hugeText).data "b".data =
        some (10 ^ 15 + 1) := by
      rw [normalizeThaiText_hugeText]
      exact firstOcc_replicate_b (10 ^ 15 + 1)
    rw [show normalizeThaiToken "b" = "b" from rfl, h1]
    rfl
  · rw [show normalizeThaiToken "c" = "c" from rfl,
      normalizeThaiText_hugeText]
    exact firstOcc_replicate_c (10 ^ 15 + 1)
  · have hsort : sortStable decoLt
        [⟨"b", 0, 10 ^ 15 + 1⟩, ⟨"c", 1, 10 ^ 15⟩] =
        [⟨"c", 1, 10 ^ 15⟩, ⟨"b", 0, 10 ^ 15 + 1⟩] := by
      simp only [sortStable, insertStable]
      rw [if_pos (by decide)]
    simp only [orderTokensByOriginalText]
    rw [decorate_hugeText, hsort]
    decide

theorem orderTokens_spec_witness :
    (orderTokensByOriginalText "abc" ["c", "a", "x"]).Perm
      (["c", "a", "x"].map normalizeThaiToken) ∧
    (orderTokensByOriginalText "abc" ["c", "a", "x"]).Pairwise
      (fun a b => occKey "abc" a < occKey "abc" b ∨
        (occKey "abc" a = occKey "abc" b ∧
          (["c", "a", "x"].map normalizeThaiToken).indexOf a <
            (["c", "a", "x"].map normalizeThaiToken).indexOf b)) ∧
    (orderTokensByOriginalText "abc" ["c", "a", "x"]).Pairwise
      (fun a b => firstOcc (normalizeThaiText "abc").data a.data = none →
        firstOcc (normalizeThaiText "abc").data b.data = none) :=
  orderTokens_spec "abc" ["c", "a", "x"] (by decide) (by decide) (by decide)

/-! ## C9: idempotence of the two token normalizers -/

theorem dropWhile_head_not (p : α → Bool) :
    ∀ (l : List α) (x : α), (l.dropWhile p).head? = some x → p x = false := by
  intro l
  induction l with
  | nil => intro x h; simp at h
  | cons a as ih =>
    intro x h
    rw [List.dropWhile_cons] at h
    split at h
    · exact ih x h
    · rename_i hpa
      simp only [List.head?_cons, Option.some.injEq] at h
      rw [← h]
      cases hv : p a
      · rfl
      · exact absurd hv hpa

theorem dropWhile_of_head_not (p : α → Bool) (l : List α)
    (h : ∀ x, l.head? = some x → p x = false) : l.dropWhile p = l := by
  cases l with
  | nil => rfl
  | cons a as =>
    rw [List.dropWhile_cons, if_neg]
    simp [h a rfl]

theorem trimList_subset (l : List Char) : ∀ c ∈ trimList l, c ∈ l := by
  intro c hc
  simp only [trimList, List.mem_reverse] at hc
  have h1 := (List.dropWhile_sublist wsChar).subset hc
  rw [List.mem_reverse] at h1
  exact (List.dropWhile_sublist wsChar).subset h1

theorem trimList_head_not (l : List Char) :
    ∀ x, (trimList l).head? = some x → wsChar x = false := by
  intro x hx
  simp only [trimList] at hx
  rw [List.head?_reverse] at hx
  rcases hy : ((l.dropWhile wsChar).reverse.dropWhile wsChar) with _ | ⟨a, as⟩
  · rw [hy] at hx
    simp at hx
  · rw [hy] at hx
    have hdecomp := List.takeWhile_append_dropWhile wsChar
      (l.dropWhile wsChar).reverse
    rw [hy] at hdecomp
    have hne : (a :: as) ≠ ([] : List Char) := by simp
    have hlast : ((l.dropWhile wsChar).reverse).getLast? =
        (a :: as).getLast? := by
      rw [← hdecomp]
      exact List.getLast?_append_of_ne_nil _ hne
    rw [List.getLast?_reverse] at hlast
    exact dropWhile_head_not wsChar l x (hlast.trans hx)

theorem trimList_getLast_not (l : List Char) :
    ∀ x, (trimList l).getLast? = some x → wsChar x = false := by
  intro x hx
  simp only [trimList] at hx
  rw [List.getLast?_reverse] at hx
  exact dropWhile_head_not wsChar _ x hx

theorem trimList_of_trimmed (l : List Char)
    (h1 : ∀ x, l.head? = some x → wsChar x = false)
    (h2 : ∀ x, l.getLast? = some x → wsChar x = false) :
    trimList l = l := by
  simp only [trimList]
  rw [dropWhile_of_head_not wsChar l h1]
  rw [dropWhile_of_head_not wsChar l.reverse
    (fun x hx => h2 x (by rwa [List.head?_reverse] at hx))]
  exact List.reverse_reverse l

theorem trimList_idem (l : List Char) : trimList (trimList l) = trimList l :=
  trimList_of_trimmed _ (trimList_head_not l) (trimList_getLast_not l)

theorem jsTrim_idem (s : String) : jsTrim (jsTrim s) = jsTrim s :=
  congrArg String.mk (trimList_idem s.data)

theorem normalizeThaiToken_idem_data (l : List Char) :
    trimList ((trimList (l.filter (fun c => !isZWChar c))).filter
      (fun c => !isZWChar c)) =
    trimList (l.filter (fun c => !isZWChar c)) := by
  have hf : (trimList (l.filter (fun c => !isZWChar c))).filter
      (fun c => !isZWChar c) = trimList (l.filter (fun c => !isZWChar c)) := by
    apply List.filter_eq_self.mpr
    intro c hc
    exact (List.mem_filter.mp (trimList_subset _ c hc)).2
  rw [hf, trimList_idem]

theorem collapseWS_nil : collapseWS [] = [] := by
  rw [collapseWS]

theorem collapseWS_head_not (m : List Char)
    (hm : ∀ x, m.head? = some x → wsChar x = false) :
    ∀ x, (collapseWS m).head? = some x → wsChar x = false := by
  cases m with
  | nil => intro x h; simp [collapseWS] at h
  | cons c cs =>
    intro x h
    have hc : wsChar c = false := hm c rfl
    rw [collapseWS, if_neg (by simp [hc])] at h
    simp only [List.head?_cons, Option.some.injEq] at h
    rw [← h]
    exact hc

theorem mem_collapseWS :
    ∀ (n : Nat) (l : List Char), l.length ≤ n →
      ∀ c ∈ collapseWS l, c = ' ' ∨ c ∈ l := by
  intro n
  induction n with
  | zero =>
    intro l hl c hc
    have hnil : l = [] := List.length_eq_zero.mp (Nat.le_zero.mp hl)
    subst hnil
    simp [collapseWS] at hc
  | succ n ih =>
    intro l hl c hc
    cases l with
    | nil => simp [collapseWS] at hc
    | cons a as =>
      simp only [List.length_cons] at hl
      cases hv : wsChar a with
      | false =>
        rw [collapseWS, if_neg (by simp [hv])] at hc
        rcases List.mem_cons.mp hc with h | h
        · right
          rw [h]
          exact List.mem_cons_self a as
        · rcases ih as (Nat.le_of_succ_le_succ hl) c h with h1 | h1
          · left; exact h1
          · right; exact List.mem_cons_of_mem a h1
      | true =>
        rw [collapseWS, if_pos (by simp [hv])] at hc
        rcases List.mem_cons.mp hc with h | h
        · left; exact h
        · have hlen : (as.dropWhile wsChar).length ≤ n :=
            le_trans (List.dropWhile_sublist wsChar).length_le
              (Nat.le_of_succ_le_succ hl)
          rcases ih (as.dropWhile wsChar) hlen c h with h1 | h1
          · left; exact h1
          · right
            exact List.mem_cons_of_mem a
              ((List.dropWhile_sublist wsChar).subset h1)

theorem collapseWS_good :
    ∀ (n : Nat) (l : List Char), l.length ≤ n →
      List.Chain' (fun a b => wsChar a = false ∨ wsChar b = false)
        (collapseWS l) ∧
      (∀ c ∈ collapseWS l, wsChar c = true → c = ' ') := by
  intro n
  induction n with
  | zero =>
    intro l hl
    have hnil : l = [] := List.length_eq_zero.mp (Nat.le_zero.mp hl)
    subst hnil
    constructor
    · rw [collapseWS_nil]
      exact List.chain'_nil
    · intro c hc
      rw [collapseWS_nil] at hc
      simp at hc
  | succ n ih =>
    intro l hl
    cases l with
    | nil =>
      constructor
      · rw [collapseWS_nil]
        exact List.chain'_nil
      · intro c hc
        rw [collapseWS_nil] at hc
        simp at hc
    | cons a as =>
      simp only [List.length_cons] at hl
      cases hv : wsChar a with
      | false =>
        rw [collapseWS, if_neg (by simp [hv])]
        obtain ⟨hch, hP⟩ := ih as (Nat.le_of_succ_le_succ hl)
        constructor
        · rw [List.chain'_cons']
          exact ⟨fun y _ => Or.inl hv, hch⟩
        · intro c hc hwc
          rcases List.mem_cons.mp hc with h | h
          · rw [h] at hwc
            rw [hv] at hwc
            cases hwc
          · exact hP c h hwc
      | true =>
        rw [collapseWS, if_pos (by simp [hv])]
        have hmhead := dropWhile_head_not wsChar as
        have hlen : (as.dropWhile wsChar).length ≤ n :=
          le_trans (List.dropWhile_sublist wsChar).length_le
            (Nat.le_of_succ_le_succ hl)
        obtain ⟨hch, hP⟩ := ih (as.dropWhile wsChar) hlen
        constructor
        · rw [List.chain'_cons']
          refine ⟨?_, hch⟩
          intro y hy
          exact Or.inr (collapseWS_head_not _ hmhead y hy)
        · intro c hc hwc
          rcases List.mem_cons.mp hc with h | h
          · exact h
          · exact hP c h hwc

theorem collapseWS_of_good :
    ∀ (l : List Char),
      List.Chain' (fun a b => wsChar a = false ∨ wsChar b = false) l →
      (∀ c ∈ l, wsChar c = true → c = ' ') → collapseWS l = l := by
  intro l
  induction l with
  | nil => intro _ _; exact collapseWS_nil
  | cons a as ih =>
    intro hch hP
    obtain ⟨hhead, hch'⟩ := List.chain'_cons'.mp hch
    cases hv : wsChar a with
    | false =>
      rw [collapseWS, if_neg (by simp [hv])]
      rw [ih hch' (fun c hc => hP c (List.mem_cons_of_mem a hc))]
    | true =>
      have ha : a = ' ' := hP a (List.mem_cons_self a as) hv
      have hdrop : as.dropWhile wsChar = as := by
        apply dropWhile_of_head_not
        intro x hx
        rcases hhead x hx with h | h
        · rw [hv] at h
          cases h
        · exact h
      rw [collapseWS, if_pos (by simp [hv]), hdrop]
      rw [ih hch' (fun c hc => hP c (List.mem_cons_of_mem a hc))]
      rw [ha]

theorem chain'_dropWhile {α : Type _} {R : α → α → Prop} (p : α → Bool)
    (l : List α) (h : List.Chain' R l) : List.Chain' R (l.dropWhile p) := by
  have hdecomp := List.takeWhile_append_dropWhile p l
  rw [← hdecomp] at h
  exact (List.chain'_append.mp h).2.1

theorem chain'_reverse_of_symm {α : Type _} {R : α → α → Prop}
    (hs : ∀ a b, R a b → R b a) (l : List α) (h : List.Chain' R l) :
    List.Chain' R l.reverse := by
  rw [List.chain'_reverse]
  exact List.Chain'.imp (fun a b hab => hs a b hab) h

theorem chain'_trimList {R : Char → Char → Prop}
    (hs : ∀ a b, R a b → R b a) (l : List Char) (h : List.Chain' R l) :
    List.Chain' R (trimList l) := by
  have h1 := chain'_dropWhile wsChar l h
  have h2 := chain'_reverse_of_symm hs _ h1
  have h3 := chain'_dropWhile wsChar _ h2
  exact chain'_reverse_of_symm hs _ h3

theorem normalizeToken_idem_data (l : List Char) :
    trimList (collapseWS ((trimList (trimList (collapseWS
      ((trimList l).filter (fun c => !isPunctChar c))))).filter
        (fun c => !isPunctChar c))) =
    trimList (collapseWS ((trimList l).filter (fun c => !isPunctChar c))) := by
  have htx : trimList (trimList (collapseWS
      ((trimList l).filter (fun c => !isPunctChar c)))) =
      trimList (collapseWS ((trimList l).filter (fun c => !isPunctChar c))) :=
    trimList_idem _
  rw [htx]
  have hfx : (trimList (collapseWS
      ((trimList l).filter (fun c => !isPunctChar c)))).filter
        (fun c => !isPunctChar c) =
      trimList (collapseWS ((trimList l).filter (fun c => !isPunctChar c))) := by
    apply List.filter_eq_self.mpr
    intro c hc
    have hc1 := trimList_subset _ c hc
    rcases mem_collapseWS ((trimList l).filter
        (fun c => !isPunctChar c)).length _ (le_refl _) c hc1 with h | h
    · rw [h]
      decide
    · exact (List.mem_filter.mp h).2
  rw [hfx]
  have hQ := collapseWS_good ((trimList l).filter
    (fun c => !isPunctChar c)).length _ (le_refl _)
  have hQ1 : List.Chain' (fun a b => wsChar a = false ∨ wsChar b = false)
      (trimList (collapseWS ((trimList l).filter
        (fun c => !isPunctChar c)))) :=
    chain'_trimList (fun a b hab => hab.symm) _ hQ.1
  have hQ2 : ∀ c ∈ trimList (collapseWS ((trimList l).filter
      (fun c => !isPunctChar c))), wsChar c = true → c = ' ' :=
    fun c hc => hQ.2 c (trimList_subset _ c hc)
  rw [collapseWS_of_good _ hQ1 hQ2, trimList_idem]

/-- C9: both token normalizers are idempotent: `normalizeThaiToken`
(zero-width strip + trim, ResultPage.tsx) and `normalizeToken` (trim +
punctuation strip + whitespace collapse + trim, summarize edge function). -/
theorem normalize_idempotent (s : String) :
    normalizeThaiToken (normalizeThaiToken s) = normalizeThaiToken s ∧
    normalizeToken (normalizeToken s) = normalizeToken s :=
  ⟨congrArg String.mk (normalizeThaiToken_idem_data s.data),
   congrArg String.mk (normalizeToken_idem_data s.data)⟩

/-! ## C10: the engine deduplicates before tagging -/

theorem uniqAux_mem :
    ∀ (l : List String) (seen : List String), ∀ x ∈ uniqAux seen l,
      jsTrim x = x ∧ x ≠ "" ∧ x ∉ seen := by
  intro l
  induction l with
  | nil => intro seen x hx; simp [uniqAux] at hx
  | cons w ws ih =>
    intro seen x hx
    simp only [uniqAux] at hx
    by_cases h1 : jsTrim w = ""
    · rw [if_pos h1] at hx
      exact ih seen x hx
    · rw [if_neg h1] at hx
      by_cases h2 : seen.contains (jsTrim w) = true
      · rw [if_pos h2] at hx
        exact ih seen x hx
      · rw [if_neg h2] at hx
        rcases List.mem_cons.mp hx with h | h
        · subst h
          refine ⟨jsTrim_idem w, h1, ?_⟩
          intro hmem
          exact h2 (by simpa using hmem)
        · have hr := ih (jsTrim w :: seen) x h
          exact ⟨hr.1, hr.2.1, fun hmem => hr.2.2 (List.mem_cons_of_mem _ hmem)⟩

theorem uniqAux_nodup : ∀ (l seen : List String), (uniqAux seen l).Nodup := by
  intro l
  induction l with
  | nil => intro seen; simp [uniqAux]
  | cons w ws ih =>
    intro seen
    simp only [uniqAux]
    by_cases h1 : jsTrim w = ""
    · rw [if_pos h1]; exact ih seen
    · rw [if_neg h1]
      by_cases h2 : seen.contains (jsTrim w) = true
      · rw [if_pos h2]; exact ih seen
      · rw [if_neg h2]
        refine List.nodup_cons.mpr ⟨?_, ih (jsTrim w :: seen)⟩
        intro hmem
        exact (uniqAux_mem ws (jsTrim w :: seen) _ hmem).2.2
          (List.mem_cons_self _ _)

theorem uniqAux_fix : ∀ (l : List String) (seen : List String),
    (∀ x ∈ l, jsTrim x = x ∧ x ≠ "") → l.Nodup → (∀ x ∈ l, x ∉ seen) →
    uniqAux seen l = l := by
  intro l
  induction l with
  | nil => intro seen _ _ _; rfl
  | cons w ws ih =>
    intro seen hcl hnd hdisj
    obtain ⟨hw, hw0⟩ := hcl w (List.mem_cons_self w ws)
    simp only [uniqAux, hw]
    rw [if_neg hw0]
    have hwseen : ¬(seen.contains w = true) := by
      intro hc
      exact hdisj w (List.mem_cons_self w ws) (by simpa using hc)
    rw [if_neg hwseen]
    congr 1
    apply ih (w :: seen)
    · intro x hx
      exact hcl x (List.mem_cons_of_mem w hx)
    · exact (List.nodup_cons.mp hnd).2
    · intro x hx hmem
      rcases List.mem_cons.mp hmem with h | h
      · exact (List.nodup_cons.mp hnd).1 (h ▸ hx)
      · exact hdisj x (List.mem_cons_of_mem w hx) h

theorem uniq_idem (l : List String) :
    uniqPreserveOrder (uniqPreserveOrder l) = uniqPreserveOrder l := by
  apply uniqAux_fix
  · intro x hx
    have h := uniqAux_mem l [] x hx
    exact ⟨h.1, h.2.1⟩
  · exact uniqAux_nodup l []
  · intro x _
    exact List.not_mem_nil x

theorem uniq_nodup (l : List String) : (uniqPreserveOrder l).Nodup :=
  uniqAux_nodup l []

/-- C10: `toThslTokens` deduplicates before tagging: running it on the raw
token list equals running it on `uniqPreserveOrder` of the list, the output
word sequence is a permutation of the deduplicated (not the raw) list, and
it therefore contains each trimmed non-empty word at most once. -/
theorem toThslTokens_dedup (tokens : List String) :
    toThslTokens tokens = toThslTokens (uniqPreserveOrder tokens) ∧
    ((toThslTokens tokens).thsl).Perm (uniqPreserveOrder tokens) ∧
    ((toThslTokens tokens).thsl).Nodup := by
  have htag : tagTokens (uniqPreserveOrder tokens) = tagTokens tokens := by
    simp only [tagTokens, uniq_idem]
  have h1 : toThslTokens (uniqPreserveOrder tokens) = toThslTokens tokens := by
    simp only [toThslTokens, htag]
  have hwords : (tagTokens tokens).map (·.word) = uniqPreserveOrder tokens := by
    simp only [tagTokens, List.map_map]
    exact List.map_id _
  have hperm : ((toThslTokens tokens).thsl).Perm
      ((tagTokens tokens).map (·.word)) := by
    simp only [toThslTokens]
    cases hf : findExactRule (tagTokens tokens) with
    | none => exact List.Perm.refl _
    | some rule => simpa using reorder_perm (tagTokens tokens) rule.thslOrder
  refine ⟨h1.symm, ?_, ?_⟩
  · rw [← hwords]
    exact hperm
  · refine (List.Perm.nodup_iff ?_).mpr (uniq_nodup tokens)
    rw [← hwords]
    exact hperm
